import Mathlib

/-!
Verification development for the pomelo room plugin
(`lib/manager/roomManager.js`: classes `RoomManager` and `Room`).

The JavaScript source is shallowly embedded:

* JSON values are modelled by the flat inductive `Json`; the constructors
  `jnil` / `jcons` / `fcons` encode the element list of an array and the
  field list of an object, so that every function on `Json` is structurally
  recursive and kernel-reducible.  Numeric payloads are modelled as integers
  (floating point is out of scope of the embedding); strings carry the
  escaping of `"` and `\` that `JSON.stringify` performs.
* `jsonStringify` models `JSON.stringify` (no-space form, as produced by the
  node runtime), `jsonParse` models `JSON.parse` on the fragment of JSON
  relevant to the store layout (no insignificant whitespace, integer
  numerals, `\"` and `\\` string escapes).
* Redis structures are modelled as association lists / lists of serialized
  strings; the store commands issued by the code are counted so that
  claims about how many fetches / subscribes happen can be stated.
* The single-threaded cooperative scheduling of node is modelled for the
  initialization protocol by a small-step machine whose suspension points
  are exactly the `await`s of the source.
-/

/-! ### Characters and JSON values -/

abbrev Chars := List Char

/-- JSON values, flattened: `arr` wraps a `jnil`/`jcons` element chain and
`obj` wraps a `jnil`/`fcons` field chain.  Well-formedness of the chains is
expressed by `wfm`. -/
inductive Json where
  | null
  | bool (b : Bool)
  | num (n : Int)
  | str (s : Chars)
  | arr (elems : Json)
  | obj (fields : Json)
  | jnil
  | jcons (hd tl : Json)
  | fcons (k : Chars) (v tl : Json)
deriving DecidableEq, Repr

/-- Parsing / printing mode: a top-level value, an array element chain, or
an object field chain. -/
inductive PMode where
  | val
  | elems
  | fields
deriving DecidableEq, Repr

/-- Which `Json` trees are meaningful in each mode. -/
def wfm : PMode → Json → Bool
  | .val, .null => true
  | .val, .bool _ => true
  | .val, .num _ => true
  | .val, .str _ => true
  | .val, .arr e => wfm .elems e
  | .val, .obj f => wfm .fields f
  | .val, _ => false
  | .elems, .jnil => true
  | .elems, .jcons h t => wfm .val h && wfm .elems t
  | .elems, _ => false
  | .fields, .jnil => true
  | .fields, .fcons _ v t => wfm .val v && wfm .fields t
  | .fields, _ => false

/-- Escaping of one character inside a JSON string literal. -/
def escChar (c : Char) : Chars :=
  if c = '"' ∨ c = '\\' then ['\\', c] else [c]

/-- Escaping of a whole string, as `JSON.stringify` does. -/
def escape : Chars → Chars
  | [] => []
  | c :: t => escChar c ++ escape t

/-- Decimal digits of a natural number, fuel-indexed so that the kernel can
evaluate it; `fuel > n` suffices. -/
def natCharsF : Nat → Nat → Chars
  | 0, _ => []
  | fuel + 1, n =>
    if n < 10 then [Nat.digitChar n]
    else natCharsF fuel (n / 10) ++ [Nat.digitChar (n % 10)]

/-- Decimal digits of a natural number. -/
def natChars (n : Nat) : Chars := natCharsF (n + 1) n

/-- Decimal form of an integer, as JavaScript prints integral numbers. -/
def intChars (n : Int) : Chars :=
  if n < 0 then '-' :: natChars n.natAbs else natChars n.toNat

/-- Model of `JSON.stringify` (node emits no whitespace). -/
def jsonStringify : Json → Chars
  | .num n => intChars n
  | .bool false => ['f', 'a', 'l', 's', 'e']
  | .bool true => ['t', 'r', 'u', 'e']
  | .null => ['n', 'u', 'l', 'l']
  | .str s => '"' :: escape s ++ ['"']
  | .arr e => '[' :: jsonStringify e ++ [']']
  | .obj f => '{' :: jsonStringify f ++ ['}']
  | .jnil => []
  | .jcons h .jnil => jsonStringify h
  | .jcons h t => jsonStringify h ++ ',' :: jsonStringify t
  | .fcons k v .jnil => '"' :: escape k ++ '"' :: ':' :: jsonStringify v
  | .fcons k v t => '"' :: escape k ++ '"' :: ':' :: jsonStringify v ++ ',' :: jsonStringify t

/-- Numeric value of a digit character. -/
def digitVal (c : Char) : Nat := c.toNat - 48

/-- Numeric value of a digit string. -/
def digsVal (cs : Chars) : Nat := cs.foldl (fun a c => a * 10 + digitVal c) 0

/-- Body of a JSON string literal: everything up to the closing quote,
undoing the escapes. -/
def parseStringBody : Chars → Option (Chars × Chars)
  | [] => none
  | c :: rest =>
    if c = '"' then some ([], rest)
    else if c = '\\' then
      match rest with
      | [] => none
      | d :: rest2 => (parseStringBody rest2).map (fun p => (d :: p.1, p.2))
    else (parseStringBody rest).map (fun p => (c :: p.1, p.2))

/-- Fuel-indexed JSON parser; `parseF fuel m cs` parses one value / element
chain / field chain from `cs` and returns it with the unconsumed rest. -/
def parseF : Nat → PMode → Chars → Option (Json × Chars)
  | 0, _, _ => none
  | fuel + 1, .val, cs =>
    match cs with
    | [] => none
    | c :: rest =>
      if c = '"' then (parseStringBody rest).map (fun p => (Json.str p.1, p.2))
      else if c = '{' then
        match rest with
        | [] => none
        | c2 :: r2 =>
          if c2 = '}' then some (Json.obj .jnil, r2)
          else (parseF fuel .fields rest).map (fun p => (Json.obj p.1, p.2))
      else if c = '[' then
        match rest with
        | [] => none
        | c2 :: r2 =>
          if c2 = ']' then some (Json.arr .jnil, r2)
          else (parseF fuel .elems rest).map (fun p => (Json.arr p.1, p.2))
      else if c = '-' then
        match rest.span Char.isDigit with
        | ([], _) => none
        | (ds, r2) => some (Json.num (-(digsVal ds : Int)), r2)
      else if c.isDigit then
        match cs.span Char.isDigit with
        | (ds, r2) => some (Json.num (digsVal ds), r2)
      else
        match cs with
        | 'n' :: 'u' :: 'l' :: 'l' :: r => some (Json.null, r)
        | 't' :: 'r' :: 'u' :: 'e' :: r => some (Json.bool true, r)
        | 'f' :: 'a' :: 'l' :: 's' :: 'e' :: r => some (Json.bool false, r)
        | _ => none
  | fuel + 1, .elems, cs =>
    match parseF fuel .val cs with
    | none => none
    | some (v, rest) =>
      match rest with
      | ',' :: r2 => (parseF fuel .elems r2).map (fun p => (Json.jcons v p.1, p.2))
      | ']' :: r2 => some (Json.jcons v .jnil, r2)
      | _ => none
  | fuel + 1, .fields, cs =>
    match cs with
    | '"' :: rest =>
      match parseStringBody rest with
      | none => none
      | some (k, r1) =>
        match r1 with
        | ':' :: r2 =>
          match parseF fuel .val r2 with
          | none => none
          | some (v, r3) =>
            match r3 with
            | ',' :: r4 => (parseF fuel .fields r4).map (fun p => (Json.fcons k v p.1, p.2))
            | '}' :: r4 => some (Json.fcons k v .jnil, r4)
            | _ => none
        | _ => none
    | _ => none

/-- Model of `JSON.parse`: the whole input must be consumed.  The grammar
is the one `jsonStringify` emits — integer numerals, no insignificant
whitespace — so the model is exact on stringifier output (the round-trip
theorem below) but rejects some texts the real parser accepts; theorems
about decoding caller-supplied strings therefore restrict themselves to
inputs that never reach this parser. -/
def jsonParse (cs : Chars) : Option Json :=
  match parseF (2 * cs.length + 1) .val cs with
  | some (v, []) => some v
  | _ => none

/-! ### Printer / parser round trip -/

theorem digitChar_isDigit {d : Nat} (h : d < 10) : (Nat.digitChar d).isDigit = true := by
  interval_cases d <;> decide

theorem digitVal_digitChar {d : Nat} (h : d < 10) : digitVal (Nat.digitChar d) = d := by
  interval_cases d <;> decide

theorem digsVal_append_one (a : Chars) (c : Char) :
    digsVal (a ++ [c]) = 10 * digsVal a + digitVal c := by
  simp [digsVal, List.foldl_append]
  omega

theorem natCharsF_spec : ∀ fuel n, n < fuel →
    (∀ c ∈ natCharsF fuel n, c.isDigit = true) ∧ natCharsF fuel n ≠ [] ∧
      digsVal (natCharsF fuel n) = n := by
  intro fuel
  induction fuel with
  | zero => omega
  | succ f ih =>
    intro n hn
    by_cases h10 : n < 10
    · refine ⟨?_, ?_, ?_⟩ <;> simp [natCharsF, h10, digsVal]
      · exact digitChar_isDigit h10
      · exact digitVal_digitChar h10
    · have hdiv : n / 10 < f := by omega
      obtain ⟨hd, hne, hv⟩ := ih (n / 10) hdiv
      refine ⟨?_, ?_, ?_⟩
      · simp only [natCharsF, if_neg h10]
        intro c hc
        rcases List.mem_append.1 hc with hc | hc
        · exact hd c hc
        · simp at hc
          subst hc
          exact digitChar_isDigit (by omega)
      · simp [natCharsF, h10]
      · simp only [natCharsF, if_neg h10]
        rw [digsVal_append_one, hv, digitVal_digitChar (by omega)]
        omega

theorem natChars_spec (n : Nat) :
    (∀ c ∈ natChars n, c.isDigit = true) ∧ natChars n ≠ [] ∧ digsVal (natChars n) = n :=
  natCharsF_spec (n + 1) n (by omega)

/-- Does the rest of the input start with a non-digit (or end)?  Needed so
that a numeral is not glued to what follows it. -/
def noDigitHead : Chars → Prop
  | [] => True
  | c :: _ => ¬ c.isDigit = true

theorem span_digits (ds rest : Chars) (hds : ∀ c ∈ ds, c.isDigit = true)
    (hr : noDigitHead rest) : (ds ++ rest).span Char.isDigit = (ds, rest) := by
  rw [List.span_eq_take_drop]
  simp only [Prod.mk.injEq]
  refine ⟨?_, ?_⟩
  · rw [List.takeWhile_append_of_pos hds]
    cases rest with
    | nil => simp
    | cons c t =>
      simp only [noDigitHead] at hr
      simp [List.takeWhile_cons, hr]
  · rw [List.dropWhile_append_of_pos hds]
    cases rest with
    | nil => simp
    | cons c t =>
      simp only [noDigitHead] at hr
      simp [List.dropWhile_cons, hr]

theorem parseStringBody_quote (rest : Chars) :
    parseStringBody ('"' :: rest) = some ([], rest) := by
  rw [parseStringBody.eq_def]
  simp

theorem parseStringBody_esc (d : Char) (rest : Chars) :
    parseStringBody ('\\' :: d :: rest) =
      (parseStringBody rest).map (fun p => (d :: p.1, p.2)) := by
  rw [parseStringBody.eq_def]
  simp

theorem parseStringBody_other (c : Char) (rest : Chars) (h1 : ¬ c = '"') (h2 : ¬ c = '\\') :
    parseStringBody (c :: rest) = (parseStringBody rest).map (fun p => (c :: p.1, p.2)) := by
  rw [parseStringBody.eq_def]
  simp [h1, h2]

theorem parseStringBody_escape (s rest : Chars) :
    parseStringBody (escape s ++ '"' :: rest) = some (s, rest) := by
  induction s with
  | nil => simpa [escape] using parseStringBody_quote rest
  | cons c t ih =>
    by_cases hq : c = '"'
    · subst hq
      simp [escape, escChar, parseStringBody_esc, ih]
    · by_cases hb : c = '\\'
      · subst hb
        simp [escape, escChar, parseStringBody_esc, ih]
      · simp [escape, escChar, hq, hb, parseStringBody_other c _ hq hb, ih]

theorem isDigit_ne_delims {c : Char} (h : c.isDigit = true) :
    c ≠ '"' ∧ c ≠ '{' ∧ c ≠ '[' ∧ c ≠ '-' ∧ c ≠ ']' ∧ c ≠ '}' ∧ c ≠ ',' := by
  refine ⟨?_, ?_, ?_, ?_, ?_, ?_, ?_⟩ <;> (rintro rfl; exact absurd h (by decide))

theorem noDigitHead_nil : noDigitHead [] := trivial

theorem noDigitHead_rb (r : Chars) : noDigitHead (']' :: r) := by
  simp [noDigitHead]

theorem noDigitHead_cb (r : Chars) : noDigitHead ('}' :: r) := by
  simp [noDigitHead]

theorem noDigitHead_comma (r : Chars) : noDigitHead (',' :: r) := by
  simp [noDigitHead]

theorem stringify_val_head (v : Json) (hwf : wfm .val v = true) :
    ∃ c t, jsonStringify v = c :: t ∧ c ≠ ']' ∧ c ≠ '}' := by
  cases v with
  | null => exact ⟨'n', _, rfl, by decide, by decide⟩
  | bool b =>
    cases b
    · exact ⟨'f', _, rfl, by decide, by decide⟩
    · exact ⟨'t', _, rfl, by decide, by decide⟩
  | num n =>
    by_cases hn : n < 0
    · exact ⟨'-', natChars n.natAbs, by simp [jsonStringify, intChars, hn], by decide, by decide⟩
    · obtain ⟨hd, hne, -⟩ := natChars_spec n.toNat
      obtain ⟨c, t, hct⟩ := List.exists_cons_of_ne_nil hne
      have hc : c.isDigit = true := hd c (by rw [hct]; exact List.mem_cons_self _ _)
      obtain ⟨-, -, -, -, h5, h6, -⟩ := isDigit_ne_delims hc
      exact ⟨c, t, by simp [jsonStringify, intChars, hn, hct], h5, h6⟩
  | str s => exact ⟨'"', _, rfl, by decide, by decide⟩
  | arr e => exact ⟨'[', _, rfl, by decide, by decide⟩
  | obj f => exact ⟨'{', _, rfl, by decide, by decide⟩
  | jnil => simp [wfm] at hwf
  | jcons a b => simp [wfm] at hwf
  | fcons k a b => simp [wfm] at hwf

theorem parseF_val_null (F : Nat) (rest : Chars) :
    parseF (F + 1) .val ('n' :: 'u' :: 'l' :: 'l' :: rest) = some (.null, rest) := by
  rw [parseF.eq_def]
  simp

theorem parseF_val_true (F : Nat) (rest : Chars) :
    parseF (F + 1) .val ('t' :: 'r' :: 'u' :: 'e' :: rest) = some (.bool true, rest) := by
  rw [parseF.eq_def]
  simp

theorem parseF_val_false (F : Nat) (rest : Chars) :
    parseF (F + 1) .val ('f' :: 'a' :: 'l' :: 's' :: 'e' :: rest) = some (.bool false, rest) := by
  rw [parseF.eq_def]
  simp

theorem parseF_val_str (F : Nat) (s rest : Chars) :
    parseF (F + 1) .val (jsonStringify (.str s) ++ rest) = some (.str s, rest) := by
  have h : jsonStringify (.str s) ++ rest = '"' :: (escape s ++ '"' :: rest) := by
    simp [jsonStringify]
  rw [h, parseF.eq_def]
  simp [parseStringBody_escape]

theorem takeWhile_digits (ds rest : Chars) (hds : ∀ c ∈ ds, c.isDigit = true)
    (hr : noDigitHead rest) : List.takeWhile Char.isDigit (ds ++ rest) = ds := by
  rw [List.takeWhile_append_of_pos hds]
  cases rest with
  | nil => simp
  | cons c t =>
    simp only [noDigitHead] at hr
    simp [List.takeWhile_cons, hr]

theorem dropWhile_digits (ds rest : Chars) (hds : ∀ c ∈ ds, c.isDigit = true)
    (hr : noDigitHead rest) : List.dropWhile Char.isDigit (ds ++ rest) = rest := by
  rw [List.dropWhile_append_of_pos hds]
  cases rest with
  | nil => simp
  | cons c t =>
    simp only [noDigitHead] at hr
    simp [List.dropWhile_cons, hr]

theorem parseF_val_num (F : Nat) (n : Int) (rest : Chars) (hr : noDigitHead rest) :
    parseF (F + 1) .val (jsonStringify (.num n) ++ rest) = some (.num n, rest) := by
  by_cases hn : n < 0
  · obtain ⟨hd, hne, hv⟩ := natChars_spec n.natAbs
    obtain ⟨c, t, hct⟩ := List.exists_cons_of_ne_nil hne
    have hds : ∀ x ∈ c :: t, x.isDigit = true := hct ▸ hd
    have htake := takeWhile_digits (c :: t) rest hds hr
    have hdrop := dropWhile_digits (c :: t) rest hds hr
    have hvv : digsVal (c :: t) = n.natAbs := hct ▸ hv
    have h : jsonStringify (.num n) ++ rest = '-' :: ((c :: t) ++ rest) := by
      simp [jsonStringify, intChars, hn, hct]
    rw [List.cons_append] at htake hdrop
    rw [h, parseF.eq_def]
    simp [htake, hdrop, hvv]
    rw [abs_of_neg hn, neg_neg]
  · obtain ⟨hd, hne, hv⟩ := natChars_spec n.toNat
    obtain ⟨c, t, hct⟩ := List.exists_cons_of_ne_nil hne
    have hds : ∀ x ∈ c :: t, x.isDigit = true := hct ▸ hd
    have hc : c.isDigit = true := hds c (List.mem_cons_self _ _)
    obtain ⟨h1, h2, h3, h4, -, -, -⟩ := isDigit_ne_delims hc
    have hdst : ∀ x ∈ t, x.isDigit = true := fun x hx => hds x (List.mem_cons_of_mem _ hx)
    have htake := takeWhile_digits t rest hdst hr
    have hdrop := dropWhile_digits t rest hdst hr
    have hvv : digsVal (c :: t) = n.toNat := hct ▸ hv
    have h : jsonStringify (.num n) ++ rest = c :: (t ++ rest) := by
      simp [jsonStringify, intChars, hn, hct]
    rw [h, parseF.eq_def]
    simp [h1, h2, h3, h4, hc, htake, hdrop, hvv]
    omega

theorem parseF_val_arr_nil (F : Nat) (rest : Chars) :
    parseF (F + 1) .val (jsonStringify (.arr .jnil) ++ rest) = some (.arr .jnil, rest) := by
  rw [parseF.eq_def]
  simp [jsonStringify]

theorem parseF_val_obj_nil (F : Nat) (rest : Chars) :
    parseF (F + 1) .val (jsonStringify (.obj .jnil) ++ rest) = some (.obj .jnil, rest) := by
  rw [parseF.eq_def]
  simp [jsonStringify]

theorem parseF_val_arr (F : Nat) (e : Json) (rest : Chars) (hwf : wfm .val (.arr e) = true)
    (hne : e ≠ .jnil)
    (hrec : parseF F .elems (jsonStringify e ++ ']' :: rest) = some (e, rest)) :
    parseF (F + 1) .val (jsonStringify (.arr e) ++ rest) = some (.arr e, rest) := by
  have hwfe : wfm .elems e = true := by simpa [wfm] using hwf
  cases e with
  | jcons hd tl =>
    have hwfh : wfm .val hd = true := by
      have := hwfe
      simp [wfm, Bool.and_eq_true] at this
      exact this.1
    obtain ⟨c, t, hct, hc1, hc2⟩ := stringify_val_head hd hwfh
    have hhead : ∃ u, jsonStringify (Json.jcons hd tl) ++ ']' :: rest = c :: u := by
      cases tl with
      | jnil => exact ⟨t ++ ']' :: rest, by simp [jsonStringify, hct]⟩
      | jcons a b =>
        exact ⟨t ++ ',' :: jsonStringify (Json.jcons a b) ++ ']' :: rest,
          by simp [jsonStringify, hct]⟩
      | _ => simp [wfm] at hwfe
    obtain ⟨u, hu⟩ := hhead
    have h : jsonStringify (.arr (Json.jcons hd tl)) ++ rest =
        '[' :: (c :: u) := by
      rw [← hu]
      simp [jsonStringify]
    rw [hu] at hrec
    rw [h, parseF.eq_def]
    simp [hc1, hrec]
  | jnil => exact absurd rfl hne
  | _ => simp [wfm] at hwfe

theorem parseF_val_obj (F : Nat) (f : Json) (rest : Chars) (hwf : wfm .val (.obj f) = true)
    (hne : f ≠ .jnil)
    (hrec : parseF F .fields (jsonStringify f ++ '}' :: rest) = some (f, rest)) :
    parseF (F + 1) .val (jsonStringify (.obj f) ++ rest) = some (.obj f, rest) := by
  have hwff : wfm .fields f = true := by simpa [wfm] using hwf
  cases f with
  | fcons k v tl =>
    have hhead : ∃ u, jsonStringify (Json.fcons k v tl) ++ '}' :: rest = '"' :: u := by
      cases tl with
      | jnil => exact ⟨escape k ++ '"' :: ':' :: jsonStringify v ++ '}' :: rest,
          by simp [jsonStringify]⟩
      | fcons k2 v2 t2 =>
        exact ⟨escape k ++ '"' :: ':' :: jsonStringify v ++ ',' ::
            jsonStringify (Json.fcons k2 v2 t2) ++ '}' :: rest, by simp [jsonStringify]⟩
      | _ => simp [wfm] at hwff
    obtain ⟨u, hu⟩ := hhead
    have h : jsonStringify (.obj (Json.fcons k v tl)) ++ rest = '{' :: ('"' :: u) := by
      rw [← hu]
      simp [jsonStringify]
    rw [hu] at hrec
    rw [h, parseF.eq_def]
    simp [hrec]
  | jnil => exact absurd rfl hne
  | _ => simp [wfm] at hwff

theorem parseF_round : ∀ F : Nat,
    (∀ v rest, wfm .val v = true → (jsonStringify v).length ≤ F → noDigitHead rest →
      parseF F .val (jsonStringify v ++ rest) = some (v, rest)) ∧
    (∀ e rest, wfm .elems e = true → e ≠ .jnil → (jsonStringify e).length < F →
      parseF F .elems (jsonStringify e ++ ']' :: rest) = some (e, rest)) ∧
    (∀ f rest, wfm .fields f = true → f ≠ .jnil → (jsonStringify f).length < F →
      parseF F .fields (jsonStringify f ++ '}' :: rest) = some (f, rest)) := by
  intro F
  induction F with
  | zero =>
    refine ⟨?_, fun _ _ _ _ h => absurd h (by omega), fun _ _ _ _ h => absurd h (by omega)⟩
    intro v rest hwf hlen _
    obtain ⟨c, t, hct, -, -⟩ := stringify_val_head v hwf
    rw [hct] at hlen
    simp at hlen
  | succ F ih =>
    obtain ⟨ihV, ihE, ihF⟩ := ih
    refine ⟨?_, ?_, ?_⟩
    · intro v rest hwf hlen hr
      cases v with
      | null => simpa [jsonStringify] using parseF_val_null F rest
      | bool b =>
        cases b
        · simpa [jsonStringify] using parseF_val_false F rest
        · simpa [jsonStringify] using parseF_val_true F rest
      | num n => exact parseF_val_num F n rest hr
      | str s => exact parseF_val_str F s rest
      | arr e =>
        by_cases he : e = .jnil
        · subst he
          exact parseF_val_arr_nil F rest
        · have hwfe : wfm .elems e = true := by simpa [wfm] using hwf
          have hlt : (jsonStringify e).length < F := by
            simp [jsonStringify] at hlen
            omega
          exact parseF_val_arr F e rest hwf he (ihE e rest hwfe he hlt)
      | obj f =>
        by_cases hf : f = .jnil
        · subst hf
          exact parseF_val_obj_nil F rest
        · have hwff : wfm .fields f = true := by simpa [wfm] using hwf
          have hlt : (jsonStringify f).length < F := by
            simp [jsonStringify] at hlen
            omega
          exact parseF_val_obj F f rest hwf hf (ihF f rest hwff hf hlt)
      | jnil => simp [wfm] at hwf
      | jcons a b => simp [wfm] at hwf
      | fcons k a b => simp [wfm] at hwf
    · intro e rest hwf hne hlen
      cases e with
      | jcons hd tl =>
        have hsplit : wfm .val hd = true ∧ wfm .elems tl = true := by
          simpa [wfm, Bool.and_eq_true] using hwf
        obtain ⟨hwfh, hwft⟩ := hsplit
        cases tl with
        | jnil =>
          have hstr : jsonStringify (Json.jcons hd .jnil) = jsonStringify hd := by
            simp [jsonStringify]
          have hlenh : (jsonStringify hd).length ≤ F := by
            rw [hstr] at hlen
            omega
          have hv := ihV hd (']' :: rest) hwfh hlenh (noDigitHead_rb rest)
          rw [parseF.eq_def]
          rw [hstr]
          simp [hv]
        | jcons a b =>
          have hstr : jsonStringify (Json.jcons hd (Json.jcons a b)) =
              jsonStringify hd ++ ',' :: jsonStringify (Json.jcons a b) := rfl
          have hlens : (jsonStringify hd).length ≤ F ∧
              (jsonStringify (Json.jcons a b)).length < F := by
            rw [hstr] at hlen
            simp at hlen
            omega
          have hv := ihV hd (',' :: (jsonStringify (Json.jcons a b) ++ ']' :: rest)) hwfh
            hlens.1 (noDigitHead_comma _)
          have he2 := ihE (Json.jcons a b) rest hwft (by simp) hlens.2
          have harr : jsonStringify (Json.jcons hd (Json.jcons a b)) ++ ']' :: rest =
              jsonStringify hd ++ ',' :: (jsonStringify (Json.jcons a b) ++ ']' :: rest) := by
            rw [hstr]
            simp
          rw [parseF.eq_def, harr]
          simp [hv, he2]
        | null => simp [wfm] at hwft
        | bool b => simp [wfm] at hwft
        | num n => simp [wfm] at hwft
        | str s => simp [wfm] at hwft
        | arr e2 => simp [wfm] at hwft
        | obj f2 => simp [wfm] at hwft
        | fcons k a b => simp [wfm] at hwft
      | jnil => exact absurd rfl hne
      | null => simp [wfm] at hwf
      | bool b => simp [wfm] at hwf
      | num n => simp [wfm] at hwf
      | str s => simp [wfm] at hwf
      | arr e2 => simp [wfm] at hwf
      | obj f2 => simp [wfm] at hwf
      | fcons k a b => simp [wfm] at hwf
    · intro f rest hwf hne hlen
      cases f with
      | fcons k v tl =>
        have hsplit : wfm .val v = true ∧ wfm .fields tl = true := by
          simpa [wfm, Bool.and_eq_true] using hwf
        obtain ⟨hwfv, hwft⟩ := hsplit
        cases tl with
        | jnil =>
          have hstr : jsonStringify (Json.fcons k v .jnil) =
              '"' :: escape k ++ '"' :: ':' :: jsonStringify v := rfl
          have hlenv : (jsonStringify v).length ≤ F := by
            rw [hstr] at hlen
            simp at hlen
            omega
          have hv := ihV v ('}' :: rest) hwfv hlenv (noDigitHead_cb rest)
          rw [parseF.eq_def, hstr]
          simp [parseStringBody_escape, hv]
        | fcons k2 v2 t2 =>
          have hstr : jsonStringify (Json.fcons k v (Json.fcons k2 v2 t2)) =
              '"' :: escape k ++ '"' :: ':' :: jsonStringify v ++ ',' ::
                jsonStringify (Json.fcons k2 v2 t2) := rfl
          have hlens : (jsonStringify v).length ≤ F ∧
              (jsonStringify (Json.fcons k2 v2 t2)).length < F := by
            rw [hstr] at hlen
            simp at hlen
            omega
          have hv := ihV v (',' :: (jsonStringify (Json.fcons k2 v2 t2) ++ '}' :: rest)) hwfv
            hlens.1 (noDigitHead_comma _)
          have hf2 := ihF (Json.fcons k2 v2 t2) rest hwft (by simp) hlens.2
          rw [parseF.eq_def, hstr]
          simp [parseStringBody_escape, hv, hf2]
        | null => simp [wfm] at hwft
        | bool b => simp [wfm] at hwft
        | num n => simp [wfm] at hwft
        | str s => simp [wfm] at hwft
        | arr e2 => simp [wfm] at hwft
        | obj f2 => simp [wfm] at hwft
        | jcons a b => simp [wfm] at hwft
      | jnil => exact absurd rfl hne
      | null => simp [wfm] at hwf
      | bool b => simp [wfm] at hwf
      | num n => simp [wfm] at hwf
      | str s => simp [wfm] at hwf
      | arr e2 => simp [wfm] at hwf
      | obj f2 => simp [wfm] at hwf
      | jcons a b => simp [wfm] at hwf

/-- The JSON round trip: parsing a printed well-formed value gives it back. -/
theorem jsonParse_stringify (v : Json) (h : wfm .val v = true) :
    jsonParse (jsonStringify v) = some v := by
  have h2 := (parseF_round (2 * (jsonStringify v).length + 1)).1 v [] h (by omega)
    noDigitHead_nil
  rw [List.append_nil] at h2
  simp [jsonParse, h2]

deriving instance DecidableEq for Except

/-! ### Key layout (`RoomManager._generateKeys`) -/

/-- Does the name contain the wildcard, as `name.includes` checks. -/
def hasStar (name : Chars) : Bool := name.contains '*'

/-- JavaScript `String.replace` with a plain string pattern replaces only the
first occurrence; the pattern here is the single character `*`. -/
def replaceFirstChar (c : Char) (repl : Chars) : Chars → Chars
  | [] => []
  | x :: t => if x = c then repl ++ t else x :: replaceFirstChar c repl t

/-- The text `{{*}}` that the code substitutes for `*` in data keys. -/
def starRepl : Chars := ['\x7b', '\x7b', '*', '\x7d', '\x7d']

structure RoomKeys where
  fullDataKey : Chars
  historyKey : Chars
  channelKey : Chars
deriving DecidableEq, Repr

/-- Model of `RoomManager._generateKeys`. -/
def generateKeys (globalPref name : Chars) : RoomKeys :=
  let isPattern := hasStar name
  let baseKey := globalPref ++ ':' :: name
  { fullDataKey :=
      if isPattern then replaceFirstChar '*' starRepl baseKey ++ ":hash".data
      else baseKey ++ ":hash".data
    historyKey :=
      if isPattern then replaceFirstChar '*' starRepl baseKey ++ ":list".data
      else baseKey ++ ":list".data
    channelKey :=
      if isPattern then baseKey ++ ":channel".data else baseKey ++ ":channel".data }

/-- Model of `channelKey.replace(/:channel$/, suffix)` used by
`Room._fetchInitialData` to derive the scan patterns. -/
def replaceChannelSuffix (newSuf : Chars) (k : Chars) : Chars :=
  if (":channel".data).isSuffixOf k then k.take (k.length - 8) ++ newSuf else k

/-! ### Store and room state

The Redis interactions of a single room are modelled by a `Store` value:
the contents the store would return for the room's keys, plus flags saying
whether the fetch and the subscribe commands succeed.  The `Room` structure
carries the fields of the JavaScript `Room` class that the claims are
about, plus counters of issued store commands and the list of performed
callback dispatches. -/

/-- Field maps (publish payloads, `fullData`) as association lists. -/
abbrev JMap := List (Chars × Json)

/-- Association-list lookup, first match (JavaScript object keys are
unique). -/
def lookupA {α : Type} (m : List (Chars × α)) (k : Chars) : Option α :=
  (m.find? (fun p => p.1 = k)).map (·.2)

/-- Association-list update: overwrite in place or append, as assignment to
an object property does. -/
def setA {α : Type} (m : List (Chars × α)) (k : Chars) (v : α) : List (Chars × α) :=
  if m.any (fun p => p.1 = k) then m.map (fun p => if p.1 = k then (p.1, v) else p)
  else m ++ [(k, v)]

/-- Object-field chain of an association list. -/
def fieldsOfList : JMap → Json
  | [] => .jnil
  | p :: t => .fcons p.1 p.2 (fieldsOfList t)

/-- The payload object built from an association list. -/
def objOfList (l : JMap) : Json := .obj (fieldsOfList l)

/-- Association list of an object-field chain. -/
def listOfFields : Json → JMap
  | .fcons k v t => (k, v) :: listOfFields t
  | _ => []

structure Store where
  hash : List (Chars × Chars)
  listItems : List Chars
  patternHashes : List (List (Chars × Chars))
  patternLists : List (List Chars)
  fetchOk : Bool
  subscribeOk : Bool
deriving DecidableEq, Repr

/-- A store with nothing in it whose commands succeed. -/
def emptyStore : Store :=
  { hash := [], listItems := [], patternHashes := [], patternLists := [],
    fetchOk := true, subscribeOk := true }

structure Opts where
  historyLength : Nat
  enableFullData : Bool
  cleanOnStartUp : Bool
  enablePublish : Bool
deriving DecidableEq, Repr

/-- Caller-supplied options; `none` means the field is absent. -/
structure OptsIn where
  historyLength : Option Nat := none
  enableFullData : Option Bool := none
  cleanOnStartUp : Option Bool := none
  enablePublish : Option Bool := none
deriving DecidableEq, Repr

/-- The `{ defaults, ...opts }` merge of the `Room` constructor. -/
def mergeOpts (o : OptsIn) : Opts :=
  { historyLength := o.historyLength.getD 0
    enableFullData := o.enableFullData.getD true
    cleanOnStartUp := o.cleanOnStartUp.getD false
    enablePublish := o.enablePublish.getD false }

structure Room where
  opts : Opts
  patternMode : Bool
  callbacks : List Nat
  fullData : JMap
  historyData : List Json
  isInitialized : Bool
  hasInitPromise : Bool
  idleSince : Option Nat
  messageHandler : Bool
  fetchCount : Nat
  subscribeCount : Nat
  unsubscribeCount : Nat
  copyCount : Nat
  dispatches : List (Nat × Option Json)
deriving DecidableEq, Repr

/-- The `Room` constructor: fresh uninitialized state. -/
def newRoom (name : Chars) (o : OptsIn) : Room :=
  { opts := mergeOpts o
    patternMode := hasStar name
    callbacks := []
    fullData := []
    historyData := []
    isInitialized := false
    hasInitPromise := false
    idleSince := none
    messageHandler := false
    fetchCount := 0
    subscribeCount := 0
    unsubscribeCount := 0
    copyCount := 0
    dispatches := [] }

/-! ### Snapshot decode, pattern aggregation, history sort -/

/-- The `items.map(item => JSON.parse(item))` over a fetched list: `none`
when any item fails to parse (the `map` throws). -/
def mapMParse : List Chars → Option (List Json)
  | [] => some []
  | c :: t =>
    match jsonParse c, mapMParse t with
    | some v, some vs => some (v :: vs)
    | _, _ => none

/-- Decode of one hash value at fetch time: values that start with `{` or
`[` are tentatively `JSON.parse`d, everything else (and parse failures)
stays a raw string.  Faithful where the stored value is stringifier output
or does not start with `\x7b`/`[`; the round-trip theorems restrict to
payloads whose string fields fall in the second class, since the model
parser is only exact in the first. -/
def decodeHashValue (raw : Chars) : Json :=
  match raw with
  | c :: _ =>
    if c = '\x7b' ∨ c = '[' then
      match jsonParse raw with
      | some v => v
      | none => .str raw
    else .str raw
  | [] => .str []

/-- Decode of a fetched hash, field by field. -/
def decodeHash (h : List (Chars × Chars)) : JMap :=
  h.map (fun p => (p.1, decodeHashValue p.2))

/-- One `Object.assign(mergedHash, data)`: fields of `upd` overwrite. -/
def mergeInto (base upd : JMap) : JMap :=
  upd.foldl (fun acc p => setA acc p.1 p.2) base

/-- Model of `Room._scanAndFetchHashes`: decode every matched hash and merge
them left to right. -/
def scanAndFetchHashes (st : Store) : JMap :=
  st.patternHashes.foldl (fun acc h => mergeInto acc (decodeHash h)) []

/-- JavaScript truthiness of a decoded history item, as `filter(Boolean)`
and the `mergedList[0]?.timestamp` guard use it.  The chain constructors
never occur as decoded items. -/
def jsTruthy : Json → Bool
  | .null => false
  | .bool b => b
  | .num n => !(n == 0)
  | .str s => !s.isEmpty
  | _ => true

/-- Property access `item.timestamp`: only objects have it; a duplicated
key resolves to its last occurrence, as `JSON.parse` keeps the last. -/
def fGetLast (k : Chars) : Json → Option Json
  | .fcons k2 v t =>
    match fGetLast k t with
    | some r => some r
    | none => if k2 = k then some v else none
  | _ => none

/-- The `timestamp` field of a history item, when there is one. -/
def timestampOf (j : Json) : Option Json :=
  match j with
  | .obj f => fGetLast ("timestamp".data) f
  | _ => none

/-- Truthiness of `item?.timestamp`. -/
def truthyTs (j : Json) : Bool :=
  match timestampOf j with
  | some v => jsTruthy v
  | none => false

/-- JavaScript whitespace trimmed by `ToNumber` on strings. -/
def jsWhite (c : Char) : Bool := c = ' ' ∨ c = '\t' ∨ c = '\n' ∨ c = '\r'

/-- `ToNumber` of a string, on the strings whose coercion is an integer:
surrounding whitespace is trimmed, an empty remainder is 0, an optional
sign precedes the digits.  `none` stands for every other outcome — `NaN`
as well as the fractional, exponent and hex forms this model leaves out. -/
def strToNum (s : Chars) : Option Int :=
  match ((s.dropWhile jsWhite).reverse.dropWhile jsWhite).reverse with
  | [] => some 0
  | '-' :: ds =>
    if ds ≠ [] ∧ ds.all Char.isDigit then some (-(digsVal ds : Int)) else none
  | '+' :: ds =>
    if ds ≠ [] ∧ ds.all Char.isDigit then some ((digsVal ds : Int)) else none
  | ds => if ds.all Char.isDigit then some ((digsVal ds : Int)) else none

/-- The numeric coercion the comparator `(a, b) => b.timestamp - a.timestamp`
applies to a timestamp: numbers stand, booleans coerce to 0/1, `null` to 0,
strings through `ToNumber`.  `none` is a subtraction that is `NaN` (missing
timestamp, non-numeric string, object) or a coercion the model leaves out
(fractional strings, arrays); the sorted-branch theorem restricts to lists
on which `tsNum` is defined everywhere. -/
def tsNum (j : Json) : Option Int :=
  match timestampOf j with
  | some (.num n) => some n
  | some (.bool b) => some (if b then 1 else 0)
  | some .null => some 0
  | some (.str s) => strToNum s
  | _ => none

/-- Total reading of the timestamp used by the model sort: the coerced
value where `tsNum` is defined, 0 elsewhere.  On lists where `tsNum` is
defined everywhere this is exactly the comparator's coercion. -/
def tsVal (j : Json) : Int := (tsNum j).getD 0

/-- The in-place `Array.sort` with the descending-timestamp comparator,
modelled as a stable sort consistent with the comparator. -/
def sortByTsDesc (l : List Json) : List Json :=
  l.mergeSort (fun a b => decide (tsVal b ≤ tsVal a))

/-- Model of `Room._scanAndFetchLists`: concatenate the parsed items of all
matched lists (a key whose fetch or parse fails is skipped; falsy items are
dropped), sort descending by timestamp if the first item has a truthy one,
then cap with `slice(0, historyLength)` when the length option is
positive. -/
def mergedListOf (st : Store) : List Json :=
  st.patternLists.foldl (fun acc items =>
    match mapMParse items with
    | some js => acc ++ js.filter jsTruthy
    | none => acc) []

def scanAndFetchLists (opts : Opts) (st : Store) : List Json :=
  let mergedList := mergedListOf st
  let sorted :=
    match mergedList with
    | [] => mergedList
    | x :: _ => if truthyTs x then sortByTsDesc mergedList else mergedList
  if opts.historyLength > 0 then sorted.take opts.historyLength else sorted

/-! ### Room operations -/

namespace Room

/-- Model of `Room._fetchInitialData`.  In the literal branch the code
destructures `Promise.all(promises)` into `[hashResult, listResult]`, so
`listResult` is only the history list when both a hash promise and a list
promise were pushed; with `enableFullData` disabled the list lands in
`hashResult` and the history stays empty.  A history item that fails to
`JSON.parse` throws out of the literal branch. -/
def fetchInitialData (r : Room) (st : Store) : Except Unit Room :=
  if st.fetchOk = false then .error ()
  else if r.patternMode = false then
    let listVals : Option (List Chars) :=
      if r.opts.enableFullData ∧ r.opts.historyLength > 0 then some st.listItems else none
    match listVals with
    | some items =>
      match mapMParse items with
      | some js =>
        .ok { r with
          fullData := if r.opts.enableFullData then decodeHash st.hash else []
          historyData := js }
      | none => .error ()
    | none =>
      .ok { r with
        fullData := if r.opts.enableFullData then decodeHash st.hash else []
        historyData := [] }
  else
    .ok { r with
      fullData := if r.opts.enableFullData then scanAndFetchHashes st else []
      historyData := if r.opts.historyLength > 0 then scanAndFetchLists r.opts st else [] }

/-- Model of `Room._initialize` (as `initRoom`): fetch, then subscribe, then mark
initialized; any failure resets `isInitialized` and clears the promise and
rethrows.  The fetch and subscribe counters record the issued store
commands; `messageHandler` is set before the subscribe command runs. -/
def initRoom (r : Room) (st : Store) : Room × Except Unit Unit :=
  let r1 := { r with fetchCount := r.fetchCount + 1 }
  match fetchInitialData r1 st with
  | .error _ => ({ r1 with isInitialized := false, hasInitPromise := false }, .error ())
  | .ok r2 =>
    let r3 := { r2 with messageHandler := true, subscribeCount := r2.subscribeCount + 1 }
    if st.subscribeOk = false then
      ({ r3 with isInitialized := false, hasInitPromise := false }, .error ())
    else
      ({ r3 with isInitialized := true }, .ok ())

/-- Model of `Room._ensureInitialized` for one sequential call: an already
initialized room returns at once; a live promise is awaited (in a
sequential run it can only be an already-resolved one); otherwise a new
initialization starts and its promise is stored. -/
def ensureInitialized (r : Room) (st : Store) : Room × Except Unit Unit :=
  if r.isInitialized then (r, .ok ())
  else if r.hasInitPromise then (r, .ok ())
  else initRoom { r with hasInitPromise := true } st

/-- `Map.set`: re-registration keeps the entry's position. -/
def insertCb (uid : Nat) (l : List Nat) : List Nat :=
  if uid ∈ l then l else l ++ [uid]

/-- Model of `Room.join`: clear the idle mark, register the callback,
ensure initialization (an error propagates, keeping the registration),
then dispatch once to the joiner with `newData = null`. -/
def join (uid : Nat) (r : Room) (st : Store) : Room × Except Unit Unit :=
  let r1 := { r with idleSince := none, callbacks := insertCb uid r.callbacks }
  match ensureInitialized r1 st with
  | (r2, .error e) => (r2, .error e)
  | (r2, .ok _) => ({ r2 with dispatches := r2.dispatches ++ [(uid, none)] }, .ok ())

/-- Model of `Room.leave` (`now` is `Date.now()`). -/
def leave (uid : Nat) (now : Nat) (r : Room) : Room :=
  let cb := r.callbacks.filter (fun u => u ≠ uid)
  { r with callbacks := cb
           idleSince := if cb.isEmpty ∧ r.isInitialized then some now else r.idleSince }

/-- Model of `Room.getFullData`. -/
def getFullData (r : Room) (st : Store) : Room × Except Unit JMap :=
  match ensureInitialized r st with
  | (r2, .error _) => (r2, .error ())
  | (r2, .ok _) => (r2, .ok r2.fullData)

/-- Model of `Room.getHistoryData`. -/
def getHistoryData (r : Room) (st : Store) : Room × Except Unit (List Json) :=
  match ensureInitialized r st with
  | (r2, .error _) => (r2, .error ())
  | (r2, .ok _) => (r2, .ok r2.historyData)

/-- Model of `Room.destroy`: unsubscribe if initialized (the unsubscribe
command runs when the handler is set and the client is open, modelled
open), clear callbacks, drop the promise, reset the flags. -/
def destroy (r : Room) : Room :=
  let r1 :=
    if r.isInitialized ∧ r.messageHandler then
      { r with unsubscribeCount := r.unsubscribeCount + 1 }
    else r
  { r1 with callbacks := [], hasInitPromise := false, isInitialized := false,
            messageHandler := false }

end Room

/-! ### Merge and dispatch -/

namespace Room

/-- The shallow merge of `_mergeAndDispatch`: each non-null field of the
payload overwrites the snapshot field. -/
def mergeFull (fd : JMap) (newData : JMap) : JMap :=
  newData.foldl (fun acc p => if p.2 = .null then acc else setA acc p.1 p.2) fd

/-- The history update of `_mergeAndDispatch`: `unshift` the payload, `pop`
the last element when the cap is exceeded. -/
def mergeHistory (len : Nat) (hist : List Json) (newData : Json) : List Json :=
  if len > 0 then
    let h1 := newData :: hist
    if h1.length > len then h1.dropLast else h1
  else hist

/-- The per-dispatch snapshot copy `JSON.parse(JSON.stringify(fullData))`. -/
def deepCopy (fd : JMap) : JMap :=
  match jsonParse (jsonStringify (objOfList fd)) with
  | some (.obj f) => listOfFields f
  | _ => fd

/-- The callback loop of `_mergeAndDispatch`.  One callback is modelled by
the mutation it performs on the snapshot-copy object it receives (a thrown
exception is caught by the code and changes nothing else).  Returns, per
callback, the pair (snapshot-copy contents at call time, `newData`). -/
def runCbs (copy : JMap) (newData : JMap) : List (JMap → JMap) → List (JMap × JMap)
  | [] => []
  | m :: ms => (copy, newData) :: runCbs (m copy) newData ms

/-- Model of `Room._mergeAndDispatch`: merge the payload into the snapshot
and the history, deep-copy the merged snapshot once (counted by
`copyCount`), and invoke every callback with that one copy and the raw
payload. -/
def mergeAndDispatch (r : Room) (newData : JMap) (muts : List (JMap → JMap)) :
    Room × List (JMap × JMap) :=
  let fd2 := if r.opts.enableFullData then mergeFull r.fullData newData else r.fullData
  let hist2 := mergeHistory r.opts.historyLength r.historyData (objOfList newData)
  let copy := deepCopy fd2
  let args := runCbs copy newData muts
  ({ r with fullData := fd2, historyData := hist2, copyCount := r.copyCount + 1 }, args)

end Room

/-! ### Manager-side operations -/

/-- `String(value)` on primitive payload values; object and array values
take the `JSON.stringify` branch of `publish` instead. -/
def jsToString : Json → Chars
  | .str s => s
  | .num n => intChars n
  | .bool true => "true".data
  | .bool false => "false".data
  | .null => "null".data
  | v => jsonStringify v

/-- The stored string for one field value: `typeof value === 'object'`
(a decoded object or array) goes through `JSON.stringify`, anything else
through `String(value)`. -/
def storedVal : Json → Chars
  | .obj f => jsonStringify (.obj f)
  | .arr e => jsonStringify (.arr e)
  | v => jsToString v

/-- The `stringifiedData` built by `RoomManager.publish`: null/undefined
fields are dropped in iteration order, the rest stored via `storedVal`. -/
def publishHash (data : JMap) : List (Chars × Chars) :=
  data.filterMap (fun p => if p.2 = .null then none else some (p.1, storedVal p.2))

/-- `hSet` of a field map: each field overwrites. -/
def hSetMerge (h upd : List (Chars × Chars)) : List (Chars × Chars) :=
  upd.foldl (fun acc p => setA acc p.1 p.2) h

namespace RoomManager

/-- Model of the storage writes of `RoomManager.publish` for a literal
room: `hSet` the stringified non-empty map when `enableFullData`, and
`lPush` + `lTrim 0 (historyLength-1)` when `historyLength > 0`.  The final
channel publish is delivered to subscribers, which
`Room.mergeAndDispatch` models on the consumer side. -/
def publish (data : JMap) (opts : Opts) (st : Store) : Store :=
  let stringified := publishHash data
  let st1 :=
    if opts.enableFullData ∧ stringified ≠ [] then
      { st with hash := hSetMerge st.hash stringified }
    else st
  if opts.historyLength > 0 then
    { st1 with listItems := (jsonStringify (objOfList data) :: st1.listItems).take opts.historyLength }
  else st1

end RoomManager

/-! ### Manager room registry -/

structure RoomManager where
  globalPref : Chars
  rooms : List (Chars × Room)
deriving Repr

namespace RoomManager

/-- Model of `RoomManager.createRoom`: reject wildcard producers; an
existing room is upgraded to a producer when asked for one; otherwise a new
room is built from the given options and stored. -/
def createRoom (name : Chars) (o : OptsIn) (m : RoomManager) :
    Except Unit (Room × RoomManager) :=
  if hasStar name ∧ o.enablePublish.getD false then .error ()
  else
    match lookupA m.rooms name with
    | some room =>
      if o.enablePublish.getD false ∧ room.opts.enablePublish = false then
        let room2 := { room with opts := { room.opts with enablePublish := true } }
        .ok (room2, { m with rooms := setA m.rooms name room2 })
      else .ok (room, m)
    | none =>
      let room := newRoom name o
      .ok (room, { m with rooms := m.rooms ++ [(name, room)] })

/-- Model of `RoomManager.getRoom`: return the existing room untouched, or
delegate creation to `createRoom`. -/
def getRoom (name : Chars) (o : OptsIn) (m : RoomManager) :
    Except Unit (Room × RoomManager) :=
  match lookupA m.rooms name with
  | some room => .ok (room, m)
  | none => createRoom name o m

end RoomManager

/-! ### Sequences of room operations (for state invariants) -/

/-- One public consumer-side operation together with the store behavior it
runs against. -/
inductive RoomOp where
  | join (uid : Nat) (st : Store)
  | leave (uid : Nat) (now : Nat)
  | getFullData (st : Store)
  | getHistoryData (st : Store)
deriving Repr

/-- State reached after one operation completes (normally or with a
propagated error). -/
def applyOp (r : Room) : RoomOp → Room
  | .join uid st => (Room.join uid r st).1
  | .leave uid now => Room.leave uid now r
  | .getFullData st => (Room.getFullData r st).1
  | .getHistoryData st => (Room.getHistoryData r st).1

/-- State after a sequence of completed operations. -/
def execOps (r : Room) (ops : List RoomOp) : Room := ops.foldl applyOp r

/-! ### Small-step machine for concurrent joins on a fresh literal room

Node's event loop is single threaded; an `async` function runs atomically
between `await`s.  `Room.join` therefore registers its callback and runs
the synchronous front of `_ensureInitialized` (including the synchronous
prefix of `_initialize` up to the first awaited store command, which issues
the snapshot fetch) in one atomic step.  The fetch response, the subscribe
response, and each resumed joiner are separate steps that a scheduler
interleaves arbitrarily.  Joiner `i` uses `userId = i`. -/

/-- Program counter of one `join` call. -/
inductive JPc where
  | start
  | waiting
  | dispatch
  | done
deriving DecidableEq, Repr

/-- Progress of the single in-flight `_initialize` run. -/
inductive IPc where
  | notStarted
  | fetching
  | subscribing
  | donePc
deriving DecidableEq, Repr

structure Sys where
  pcs : List JPc
  initPc : IPc
  isInitialized : Bool
  hasInitPromise : Bool
  fetchCount : Nat
  subscribeCount : Nat
  registered : List Nat
  dispatches : List (Nat × Option Json)
deriving DecidableEq, Repr

/-- N pending `join` calls on a fresh room. -/
def freshSys (n : Nat) : Sys :=
  { pcs := List.replicate n .start
    initPc := .notStarted
    isInitialized := false
    hasInitPromise := false
    fetchCount := 0
    subscribeCount := 0
    registered := []
    dispatches := [] }

/-- One step of joiner `i`, when it is enabled. -/
def stepJoin (s : Sys) (i : Nat) : Sys :=
  match s.pcs[i]? with
  | none => s
  | some pc =>
    match pc with
    | .start =>
      let s1 := { s with registered := Room.insertCb i s.registered }
      if s1.isInitialized then { s1 with pcs := s1.pcs.set i .dispatch }
      else if s1.hasInitPromise then { s1 with pcs := s1.pcs.set i .waiting }
      else
        { s1 with hasInitPromise := true
                  fetchCount := s1.fetchCount + 1
                  initPc := .fetching
                  pcs := s1.pcs.set i .waiting }
    | .waiting =>
      if s.initPc = .donePc then { s with pcs := s.pcs.set i .dispatch } else s
    | .dispatch =>
      { s with dispatches := s.dispatches ++ [(i, none)], pcs := s.pcs.set i .done }
    | .done => s

/-- One step of the initialization task: the fetch response arrives and the
subscribe command is issued, or the subscribe response arrives and the
promise resolves. -/
def stepInit (s : Sys) : Sys :=
  match s.initPc with
  | .fetching => { s with subscribeCount := s.subscribeCount + 1, initPc := .subscribing }
  | .subscribing => { s with isInitialized := true, initPc := .donePc }
  | _ => s

/-- A scheduler choice below `pcs.length` steps that joiner, anything else
steps the initialization task. -/
def sysStep (s : Sys) (c : Nat) : Sys :=
  if c < s.pcs.length then stepJoin s c else stepInit s

/-- Run the machine under a schedule. -/
def sysRun (s : Sys) (sched : List Nat) : Sys := sched.foldl sysStep s

/-- The machine invariant: the counters, flags and the initialization
program counter stay in lockstep, every joiner past its first step is
registered, and the dispatch log matches the set of finished joiners. -/
def SysInv (n : Nat) (s : Sys) : Prop :=
  s.pcs.length = n ∧
  s.fetchCount = (if s.initPc = .notStarted then 0 else 1) ∧
  s.subscribeCount = (if s.initPc = .notStarted ∨ s.initPc = .fetching then 0 else 1) ∧
  (s.hasInitPromise = true ↔ s.initPc ≠ .notStarted) ∧
  (s.isInitialized = true ↔ s.initPc = .donePc) ∧
  (∀ i : Nat, (s.pcs[i]? = some JPc.dispatch ∨ s.pcs[i]? = some JPc.done) → s.initPc = .donePc) ∧
  (∀ p ∈ s.dispatches, p.2 = (none : Option Json)) ∧
  (s.dispatches.map Prod.fst).Nodup ∧
  (∀ u : Nat, u ∈ s.dispatches.map Prod.fst ↔ s.pcs[u]? = some JPc.done) ∧
  (∀ u : Nat, u ∈ s.registered ↔ (∃ pc, s.pcs[u]? = some pc ∧ pc ≠ JPc.start))

theorem freshSys_inv (n : Nat) : SysInv n (freshSys n) := by
  refine ⟨by simp [freshSys], by simp [freshSys], by simp [freshSys], by simp [freshSys],
    by simp [freshSys], ?_, by simp [freshSys], by simp [freshSys], ?_, ?_⟩
  · intro i hi
    rcases hi with hi | hi <;>
    · simp only [freshSys, List.getElem?_replicate] at hi
      split at hi <;> simp_all
  · intro u
    simp only [freshSys, List.getElem?_replicate]
    constructor
    · intro hu
      simp [freshSys] at hu
    · intro hu
      split at hu <;> simp_all
  · intro u
    simp only [freshSys, List.getElem?_replicate]
    constructor
    · intro hu
      simp at hu
    · rintro ⟨pc, hpc, hne⟩
      split at hpc <;> simp_all

theorem lt_of_getElem?_some {α : Type} {l : List α} {i : Nat} {a : α}
    (h : l[i]? = some a) : i < l.length := by
  by_contra hn
  rw [List.getElem?_eq_none (by omega)] at h
  cases h

theorem forall_getElem_set_iff {l : List JPc} {c : Nat} {oldPc newPc : JPc}
    (hold : l[c]? = some oldPc) (P : Option JPc → Prop)
    (hPn : P (some newPc) ↔ P (some oldPc)) (u : Nat) :
    P ((l.set c newPc)[u]?) ↔ P (l[u]?) := by
  rw [List.getElem?_set]
  by_cases hcu : c = u
  · subst hcu
    rw [if_pos rfl, if_pos (lt_of_getElem?_some hold), hold]
    exact hPn
  · rw [if_neg hcu]

theorem mem_insertCb (c : Nat) (l : List Nat) (u : Nat) :
    u ∈ Room.insertCb c l ↔ u ∈ l ∨ u = c := by
  unfold Room.insertCb
  split
  · constructor
    · exact Or.inl
    · rintro (hu | rfl)
      · exact hu
      · assumption
  · simp [List.mem_append]

theorem stepJoin_inv {n : Nat} {s : Sys} (h : SysInv n s) (c : Nat) :
    SysInv n (stepJoin s c) := by
  obtain ⟨hlen, hfc, hsc, hpr, hin, hI5, hD2, hND, hDD, hR⟩ := h
  unfold stepJoin
  cases hpc : s.pcs[c]? with
  | none => exact ⟨hlen, hfc, hsc, hpr, hin, hI5, hD2, hND, hDD, hR⟩
  | some pc =>
    have hclen : c < s.pcs.length := lt_of_getElem?_some hpc
    cases pc with
    | start =>
      cases hinit : s.isInitialized with
      | true =>
        have hdone : s.initPc = .donePc := hin.1 hinit
        simp only [eq_self_iff_true, if_true]
        refine ⟨by simp [hlen], hfc, hsc, hpr, by simp [hdone], fun i _ => hdone, hD2, hND,
          ?_, ?_⟩
        · intro u
          exact (hDD u).trans (forall_getElem_set_iff hpc
            (fun X => X = some JPc.done) (by simp) u).symm
        · intro u
          rw [mem_insertCb, List.getElem?_set]
          by_cases hcu : c = u
          · subst hcu
            rw [if_pos rfl, if_pos hclen]
            constructor
            · intro _
              exact ⟨.dispatch, rfl, by simp⟩
            · intro _
              exact Or.inr rfl
          · rw [if_neg hcu]
            constructor
            · rintro (hu | rfl)
              · exact (hR u).1 hu
              · exact absurd rfl hcu
            · intro hx
              exact Or.inl ((hR u).2 hx)
      | false =>
        cases hprom : s.hasInitPromise with
        | true =>
          simp only [Bool.false_eq_true, if_false, eq_self_iff_true, if_true]
          have hnd : s.initPc ≠ IPc.donePc := by
            intro hcon
            have h3 := hin.2 hcon
            rw [hinit] at h3
            exact Bool.noConfusion h3
          refine ⟨by simp [hlen], hfc, hsc, by simp [hpr.1 hprom], by simp [hnd], ?_,
            hD2, hND, ?_, ?_⟩
          · intro i hi
            exact hI5 i ((forall_getElem_set_iff hpc
              (fun X => X = some JPc.dispatch ∨ X = some JPc.done) (by simp) i).1 hi)
          · intro u
            exact (hDD u).trans (forall_getElem_set_iff hpc
              (fun X => X = some JPc.done) (by simp) u).symm
          · intro u
            rw [mem_insertCb, List.getElem?_set]
            by_cases hcu : c = u
            · subst hcu
              rw [if_pos rfl, if_pos hclen]
              constructor
              · intro _
                exact ⟨.waiting, rfl, by simp⟩
              · intro _
                exact Or.inr rfl
            · rw [if_neg hcu]
              constructor
              · rintro (hu | rfl)
                · exact (hR u).1 hu
                · exact absurd rfl hcu
              · intro hx
                exact Or.inl ((hR u).2 hx)
        | false =>
          have hnots : s.initPc = .notStarted := by
            by_contra hns
            rw [hprom] at hpr
            exact absurd (hpr.2 hns) (by simp)
          simp only [Bool.false_eq_true, if_false]
          refine ⟨by simp [hlen], ?_, ?_, by simp, by simp, ?_, hD2, hND, ?_, ?_⟩
          · rw [hnots] at hfc
            simp at hfc
            simp [hfc]
          · rw [hnots] at hsc
            simp at hsc
            simp [hsc]
          · intro i hi
            have := hI5 i ((forall_getElem_set_iff hpc
              (fun X => X = some JPc.dispatch ∨ X = some JPc.done) (by simp) i).1 hi)
            rw [hnots] at this
            cases this
          · intro u
            exact (hDD u).trans (forall_getElem_set_iff hpc
              (fun X => X = some JPc.done) (by simp) u).symm
          · intro u
            rw [mem_insertCb, List.getElem?_set]
            by_cases hcu : c = u
            · subst hcu
              rw [if_pos rfl, if_pos hclen]
              constructor
              · intro _
                exact ⟨.waiting, rfl, by simp⟩
              · intro _
                exact Or.inr rfl
            · rw [if_neg hcu]
              constructor
              · rintro (hu | rfl)
                · exact (hR u).1 hu
                · exact absurd rfl hcu
              · intro hx
                exact Or.inl ((hR u).2 hx)
    | waiting =>
      cases hip : s.initPc with
      | donePc =>
        rw [if_pos rfl]
        rw [hip] at hfc hsc hpr hin
        refine ⟨by simp [hlen], hfc, hsc, hpr, hin, fun i _ => rfl, hD2, hND, ?_, ?_⟩
        · intro u
          exact (hDD u).trans (forall_getElem_set_iff hpc
            (fun X => X = some JPc.done) (by simp) u).symm
        · intro u
          exact (hR u).trans (forall_getElem_set_iff hpc
            (fun X => ∃ pc2, X = some pc2 ∧ pc2 ≠ JPc.start)
            (by constructor
                · intro _
                  exact ⟨.waiting, rfl, by simp⟩
                · intro _
                  exact ⟨.dispatch, rfl, by simp⟩) u).symm
      | notStarted =>
        rw [if_neg (fun hh => IPc.noConfusion hh)]
        exact ⟨hlen, hfc, hsc, hpr, hin, hI5, hD2, hND, hDD, hR⟩
      | fetching =>
        rw [if_neg (fun hh => IPc.noConfusion hh)]
        exact ⟨hlen, hfc, hsc, hpr, hin, hI5, hD2, hND, hDD, hR⟩
      | subscribing =>
        rw [if_neg (fun hh => IPc.noConfusion hh)]
        exact ⟨hlen, hfc, hsc, hpr, hin, hI5, hD2, hND, hDD, hR⟩
    | dispatch =>
      have hdone : s.initPc = .donePc := hI5 c (Or.inl hpc)
      have hcd : c ∉ s.dispatches.map Prod.fst := by
        intro hmem
        have := (hDD c).1 hmem
        rw [hpc] at this
        cases this
      refine ⟨by simp [hlen], hfc, hsc, hpr, hin, fun i _ => hdone, ?_, ?_, ?_, ?_⟩
      · intro p hp
        rcases List.mem_append.1 hp with hp | hp
        · exact hD2 p hp
        · simp at hp
          simp [hp]
      · rw [List.map_append]
        simp only [List.map_cons, List.map_nil]
        rw [List.nodup_append]
        refine ⟨hND, by simp, ?_⟩
        intro a ha hb
        simp at hb
        subst hb
        exact hcd ha
      · intro u
        rw [List.map_append]
        simp only [List.map_cons, List.map_nil, List.mem_append, List.mem_singleton]
        rw [List.getElem?_set]
        by_cases hcu : c = u
        · subst hcu
          rw [if_pos rfl, if_pos hclen]
          constructor
          · intro _
            rfl
          · intro _
            exact Or.inr rfl
        · rw [if_neg hcu]
          constructor
          · rintro (hu | rfl)
            · exact (hDD u).1 hu
            · exact absurd rfl hcu
          · intro hx
            exact Or.inl ((hDD u).2 hx)
      · intro u
        exact (hR u).trans (forall_getElem_set_iff hpc
          (fun X => ∃ pc2, X = some pc2 ∧ pc2 ≠ JPc.start)
          (by constructor
              · intro _
                exact ⟨.dispatch, rfl, by simp⟩
              · intro _
                exact ⟨.done, rfl, by simp⟩) u).symm
    | done =>
      exact ⟨hlen, hfc, hsc, hpr, hin, hI5, hD2, hND, hDD, hR⟩

theorem stepInit_inv {n : Nat} {s : Sys} (h : SysInv n s) : SysInv n (stepInit s) := by
  obtain ⟨hlen, hfc, hsc, hpr, hin, hI5, hD2, hND, hDD, hR⟩ := h
  unfold stepInit
  cases hip : s.initPc with
  | notStarted => exact ⟨hlen, hfc, hsc, hpr, hin, hI5, hD2, hND, hDD, hR⟩
  | donePc => exact ⟨hlen, hfc, hsc, hpr, hin, hI5, hD2, hND, hDD, hR⟩
  | fetching =>
    refine ⟨hlen, ?_, ?_, ?_, ?_, ?_, hD2, hND, hDD, hR⟩
    · rw [hip] at hfc
      simpa using hfc
    · rw [hip] at hsc
      simp at hsc
      simp [hsc]
    · rw [hip] at hpr
      simp at hpr
      simp [hpr]
    · rw [hip] at hin
      simp at hin
      simp [hin]
    · intro i hi
      have := hI5 i hi
      rw [hip] at this
      cases this
  | subscribing =>
    refine ⟨hlen, ?_, ?_, ?_, by simp, ?_, hD2, hND, hDD, hR⟩
    · rw [hip] at hfc
      simpa using hfc
    · rw [hip] at hsc
      simpa using hsc
    · rw [hip] at hpr
      simp at hpr
      simp [hpr]
    · intro i _
      rfl

theorem sysStep_inv {n : Nat} {s : Sys} (h : SysInv n s) (c : Nat) :
    SysInv n (sysStep s c) := by
  unfold sysStep
  split
  · exact stepJoin_inv h c
  · exact stepInit_inv h

theorem sysRun_inv {n : Nat} {s : Sys} (h : SysInv n s) (sched : List Nat) :
    SysInv n (sysRun s sched) := by
  induction sched generalizing s with
  | nil => exact h
  | cons c t ih => exact ih (sysStep_inv h c)

/-- C1: For every N ≥ 1, a completed run of N concurrent `join` calls on a
fresh literal room has issued exactly one snapshot fetch and exactly one
subscribe, every joiner is dispatched exactly once and with
`newData = none`, and — whether or not the run completes — never more than
one fetch or subscribe is issued (while an initialization is pending,
`_ensureInitialized` never starts a second one). -/
theorem C1_single_flight (n : Nat) (hn : 1 ≤ n) (sched : List Nat)
    (hdone : ∀ pc ∈ (sysRun (freshSys n) sched).pcs, pc = JPc.done) :
    (sysRun (freshSys n) sched).fetchCount = 1 ∧
    (sysRun (freshSys n) sched).subscribeCount = 1 ∧
    ((sysRun (freshSys n) sched).dispatches.map Prod.fst).Nodup ∧
    (∀ u : Nat, u < n ↔ (u, (none : Option Json)) ∈ (sysRun (freshSys n) sched).dispatches) ∧
    (∀ sched2 : List Nat, (sysRun (freshSys n) sched2).fetchCount ≤ 1 ∧
      (sysRun (freshSys n) sched2).subscribeCount ≤ 1) := by
  obtain ⟨hlen, hfc, hsc, hpr, hin, hI5, hD2, hND, hDD, hR⟩ :=
    sysRun_inv (freshSys_inv n) sched
  have hlt : 0 < (sysRun (freshSys n) sched).pcs.length := by omega
  have h0 : (sysRun (freshSys n) sched).pcs[0]? = some JPc.done := by
    rw [List.getElem?_eq_getElem hlt]
    exact congrArg some (hdone _ (List.getElem_mem hlt))
  have hdoneI : (sysRun (freshSys n) sched).initPc = .donePc := hI5 0 (Or.inr h0)
  refine ⟨by rw [hfc, hdoneI]; simp, by rw [hsc, hdoneI]; simp, hND, ?_, ?_⟩
  · intro u
    constructor
    · intro hu
      have hup : (sysRun (freshSys n) sched).pcs[u]? = some JPc.done := by
        rw [List.getElem?_eq_getElem (by omega)]
        exact congrArg some (hdone _ (List.getElem_mem (by omega)))
      obtain ⟨p, hp, hp1⟩ := List.mem_map.1 ((hDD u).2 hup)
      have hp2 := hD2 p hp
      have : p = (u, none) := by
        cases p
        simp at hp1 hp2
        simp [hp1, hp2]
      rw [← this]
      exact hp
    · intro hu
      have hmap : u ∈ (sysRun (freshSys n) sched).dispatches.map Prod.fst :=
        List.mem_map.2 ⟨(u, none), hu, rfl⟩
      have := (hDD u).1 hmap
      have := lt_of_getElem?_some this
      omega
  · intro sched2
    obtain ⟨-, hfc2, hsc2, -, -, -, -, -, -, -⟩ := sysRun_inv (freshSys_inv n) sched2
    constructor
    · rw [hfc2]
      split <;> omega
    · rw [hsc2]
      split <;> omega

/-- Witness for C1 at N = 2 with an interleaved completing schedule. -/
theorem C1_single_flight_witness :
    (1 ≤ 2 ∧ (∀ pc ∈ (sysRun (freshSys 2) [0, 1, 2, 2, 0, 0, 1, 1]).pcs, pc = JPc.done)) ∧
    ((sysRun (freshSys 2) [0, 1, 2, 2, 0, 0, 1, 1]).fetchCount = 1 ∧
     (sysRun (freshSys 2) [0, 1, 2, 2, 0, 0, 1, 1]).subscribeCount = 1 ∧
     ((sysRun (freshSys 2) [0, 1, 2, 2, 0, 0, 1, 1]).dispatches.map Prod.fst).Nodup ∧
     (∀ u : Nat, u < 2 ↔
        (u, (none : Option Json)) ∈ (sysRun (freshSys 2) [0, 1, 2, 2, 0, 0, 1, 1]).dispatches) ∧
     (∀ sched2 : List Nat, (sysRun (freshSys 2) sched2).fetchCount ≤ 1 ∧
        (sysRun (freshSys 2) sched2).subscribeCount ≤ 1)) :=
  ⟨⟨by decide, by decide⟩,
    C1_single_flight 2 (by decide) [0, 1, 2, 2, 0, 0, 1, 1] (by decide)⟩

theorem fetchInitialData_ok_fields {r r2 : Room} {st : Store}
    (h : Room.fetchInitialData r st = .ok r2) :
    r2.fetchCount = r.fetchCount ∧ r2.subscribeCount = r.subscribeCount ∧
    r2.isInitialized = r.isInitialized ∧ r2.hasInitPromise = r.hasInitPromise ∧
    r2.opts = r.opts ∧ r2.patternMode = r.patternMode ∧
    r2.messageHandler = r.messageHandler ∧ r2.callbacks = r.callbacks ∧
    r2.idleSince = r.idleSince ∧ r2.dispatches = r.dispatches ∧
    r2.unsubscribeCount = r.unsubscribeCount ∧ r2.copyCount = r.copyCount := by
  by_cases hok : st.fetchOk = false
  · simp [Room.fetchInitialData, hok] at h
  · by_cases hpm : r.patternMode = false
    · by_cases hc : (r.opts.enableFullData = true ∧ r.opts.historyLength > 0)
      · cases hmm : mapMParse st.listItems with
        | some js =>
          simp [Room.fetchInitialData, hok, hpm, hc, hmm] at h
          rw [← h]
          simp [hpm]
        | none =>
          simp [Room.fetchInitialData, hok, hpm, hc, hmm] at h
      · simp [Room.fetchInitialData, hok, hpm, hc] at h
        rw [← h]
        simp [hpm]
    · simp [Room.fetchInitialData, hok, hpm] at h
      rw [← h]
      simp [hpm]

theorem initRoom_fail (r : Room) (st : Store)
    (hfail : st.fetchOk = false ∨ st.subscribeOk = false) :
    (Room.initRoom r st).2 = .error () ∧
    (Room.initRoom r st).1.isInitialized = false ∧
    (Room.initRoom r st).1.hasInitPromise = false ∧
    (Room.initRoom r st).1.fetchCount = r.fetchCount + 1 := by
  unfold Room.initRoom
  rcases hfail with hf | hs
  · simp [Room.fetchInitialData, hf]
  · cases hres : Room.fetchInitialData { r with fetchCount := r.fetchCount + 1 } st with
    | error e =>
      simp [hres]
    | ok r2 =>
      obtain ⟨hfcnt, -, -, -, -, -, -, -, -, -, -, -⟩ := fetchInitialData_ok_fields hres
      simp [hres, hs, hfcnt]

theorem initRoom_ok (r : Room) (st : Store) (hf : st.fetchOk = true)
    (hs : st.subscribeOk = true) (hl : st.listItems = []) :
    (Room.initRoom r st).2 = .ok () ∧
    (Room.initRoom r st).1.isInitialized = true ∧
    (Room.initRoom r st).1.fetchCount = r.fetchCount + 1 ∧
    (Room.initRoom r st).1.subscribeCount = r.subscribeCount + 1 ∧
    (Room.initRoom r st).1.dispatches = r.dispatches ∧
    (Room.initRoom r st).1.messageHandler = true := by
  unfold Room.initRoom
  cases hres : Room.fetchInitialData { r with fetchCount := r.fetchCount + 1 } st with
  | error e =>
    exfalso
    unfold Room.fetchInitialData at hres
    simp [hf, hl] at hres
    repeat' split at hres
    all_goals simp_all [mapMParse]
  | ok r2 =>
    obtain ⟨hfcnt, hsub, -, -, -, -, -, -, -, hdisp, -, -⟩ := fetchInitialData_ok_fields hres
    simp [hres, hs, hfcnt, hsub, hdisp]

/-- C2: When the fetch or the subscribe step of initialization fails, the
error propagates to the caller of `join` / `getFullData` /
`getHistoryData`, `isInitialized` stays false and the pending
initialization promise is cleared, so the next call on the room (here
against a store that now answers) starts a fresh initialization — a new
fetch is issued — and succeeds.  No transition of the model fires on a
timer: only these calls attempt initialization. -/
theorem C2_init_failure_resets (r : Room) (st st2 : Store) (uid : Nat)
    (hni : r.isInitialized = false) (hnp : r.hasInitPromise = false)
    (hfail : st.fetchOk = false ∨ st.subscribeOk = false)
    (hf2 : st2.fetchOk = true) (hs2 : st2.subscribeOk = true)
    (hl2 : st2.listItems = []) :
    (Room.ensureInitialized r st).2 = .error () ∧
    (Room.join uid r st).2 = .error () ∧
    (Room.getFullData r st).2 = .error () ∧
    (Room.getHistoryData r st).2 = .error () ∧
    (Room.ensureInitialized r st).1.isInitialized = false ∧
    (Room.ensureInitialized r st).1.hasInitPromise = false ∧
    (Room.ensureInitialized (Room.ensureInitialized r st).1 st2).1.fetchCount =
      (Room.ensureInitialized r st).1.fetchCount + 1 ∧
    (Room.ensureInitialized (Room.ensureInitialized r st).1 st2).2 = .ok () ∧
    (Room.ensureInitialized (Room.ensureInitialized r st).1 st2).1.isInitialized = true := by
  have hens : ∀ r3 : Room, r3.isInitialized = false → r3.hasInitPromise = false →
      Room.ensureInitialized r3 st = Room.initRoom { r3 with hasInitPromise := true } st := by
    intro r3 h1 h2
    unfold Room.ensureInitialized
    rw [h1, h2]
    simp
  have hens2 : ∀ r3 : Room, r3.isInitialized = false → r3.hasInitPromise = false →
      Room.ensureInitialized r3 st2 = Room.initRoom { r3 with hasInitPromise := true } st2 := by
    intro r3 h1 h2
    unfold Room.ensureInitialized
    rw [h1, h2]
    simp
  obtain ⟨herr, hisf, hprf, hfcnt⟩ :=
    initRoom_fail { r with hasInitPromise := true } st hfail
  have hr1 : Room.ensureInitialized r st = Room.initRoom { r with hasInitPromise := true } st :=
    hens r hni hnp
  have hjoin : (Room.join uid r st).2 = .error () := by
    unfold Room.join
    dsimp only
    rw [hens { r with idleSince := none, callbacks := Room.insertCb uid r.callbacks } hni hnp]
    obtain ⟨herr2, -, -, -⟩ := initRoom_fail { r with idleSince := none, callbacks := Room.insertCb uid r.callbacks, hasInitPromise := true } st hfail
    cases hres : Room.initRoom { r with idleSince := none, callbacks := Room.insertCb uid r.callbacks, hasInitPromise := true } st with
    | mk r4 res =>
      rw [hres] at herr2
      simp at herr2
      rw [herr2]
  have hgf : (Room.getFullData r st).2 = .error () := by
    unfold Room.getFullData
    rw [hr1]
    cases hres : Room.initRoom { r with hasInitPromise := true } st with
    | mk r4 res =>
      rw [hres] at herr
      simp at herr
      rw [herr]
  have hgh : (Room.getHistoryData r st).2 = .error () := by
    unfold Room.getHistoryData
    rw [hr1]
    cases hres : Room.initRoom { r with hasInitPromise := true } st with
    | mk r4 res =>
      rw [hres] at herr
      simp at herr
      rw [herr]
  have hr2 : Room.ensureInitialized (Room.ensureInitialized r st).1 st2 =
      Room.initRoom { (Room.ensureInitialized r st).1 with hasInitPromise := true } st2 := by
    exact hens2 _ (by rw [hr1]; exact hisf) (by rw [hr1]; exact hprf)
  obtain ⟨hok2, hini2, hfc2, -, -, -⟩ :=
    initRoom_ok { (Room.ensureInitialized r st).1 with hasInitPromise := true } st2 hf2 hs2 hl2
  refine ⟨by rw [hr1]; exact herr, hjoin, hgf, hgh, by rw [hr1]; exact hisf,
    by rw [hr1]; exact hprf, ?_, ?_, ?_⟩
  · rw [hr2]
    exact hfc2
  · rw [hr2]
    exact hok2
  · rw [hr2]
    exact hini2

/-- Witness for C2: a fresh literal room against a store whose fetch
fails, then a working store. -/
theorem C2_init_failure_resets_witness :
    ((newRoom "a".data {}).isInitialized = false ∧
     (newRoom "a".data {}).hasInitPromise = false ∧
     (({ emptyStore with fetchOk := false } : Store).fetchOk = false ∨
      ({ emptyStore with fetchOk := false } : Store).subscribeOk = false) ∧
     emptyStore.fetchOk = true ∧ emptyStore.subscribeOk = true ∧
     emptyStore.listItems = []) ∧
    ((Room.ensureInitialized (newRoom "a".data {}) { emptyStore with fetchOk := false }).2 =
        .error () ∧
     (Room.join 7 (newRoom "a".data {}) { emptyStore with fetchOk := false }).2 = .error () ∧
     (Room.getFullData (newRoom "a".data {}) { emptyStore with fetchOk := false }).2 =
        .error () ∧
     (Room.getHistoryData (newRoom "a".data {}) { emptyStore with fetchOk := false }).2 =
        .error () ∧
     (Room.ensureInitialized (newRoom "a".data {})
        { emptyStore with fetchOk := false }).1.isInitialized = false ∧
     (Room.ensureInitialized (newRoom "a".data {})
        { emptyStore with fetchOk := false }).1.hasInitPromise = false ∧
     (Room.ensureInitialized (Room.ensureInitialized (newRoom "a".data {})
        { emptyStore with fetchOk := false }).1 emptyStore).1.fetchCount =
       (Room.ensureInitialized (newRoom "a".data {})
        { emptyStore with fetchOk := false }).1.fetchCount + 1 ∧
     (Room.ensureInitialized (Room.ensureInitialized (newRoom "a".data {})
        { emptyStore with fetchOk := false }).1 emptyStore).2 = .ok () ∧
     (Room.ensureInitialized (Room.ensureInitialized (newRoom "a".data {})
        { emptyStore with fetchOk := false }).1 emptyStore).1.isInitialized = true) :=
  ⟨⟨by decide, by decide, Or.inl (by decide), by decide, by decide, by decide⟩,
    C2_init_failure_resets (newRoom "a".data {}) { emptyStore with fetchOk := false }
      emptyStore 7 (by decide) (by decide) (Or.inl (by decide)) (by decide) (by decide)
      (by decide)⟩

theorem mapMParse_length : ∀ {items : List Chars} {js : List Json},
    mapMParse items = some js → js.length = items.length := by
  intro items
  induction items with
  | nil =>
    intro js h
    simp [mapMParse] at h
    simp [← h]
  | cons c t ih =>
    intro js h
    simp only [mapMParse] at h
    cases hc : jsonParse c with
    | none => rw [hc] at h; simp at h
    | some v =>
      rw [hc] at h
      cases ht : mapMParse t with
      | none => rw [ht] at h; simp at h
      | some vs =>
        rw [ht] at h
        simp at h
        rw [← h]
        simp [ih ht]

theorem scanAndFetchLists_length (opts : Opts) (st : Store)
    (hpos : 0 < opts.historyLength) :
    (scanAndFetchLists opts st).length ≤ opts.historyLength := by
  unfold scanAndFetchLists
  simp only [hpos, if_pos]
  exact List.length_take_le _ _

theorem fetchInitialData_history_bound {r r2 : Room} {st : Store}
    (h : Room.fetchInitialData r st = .ok r2)
    (hlit : r.patternMode = false → st.listItems.length ≤ r.opts.historyLength) :
    r2.historyData.length ≤ r.opts.historyLength := by
  by_cases hok : st.fetchOk = false
  · simp [Room.fetchInitialData, hok] at h
  · by_cases hpm : r.patternMode = false
    · by_cases hc : (r.opts.enableFullData = true ∧ r.opts.historyLength > 0)
      · cases hmm : mapMParse st.listItems with
        | some js =>
          simp [Room.fetchInitialData, hok, hpm, hc, hmm] at h
          rw [← h]
          simp [mapMParse_length hmm]
          exact hlit hpm
        | none =>
          simp [Room.fetchInitialData, hok, hpm, hc, hmm] at h
      · simp [Room.fetchInitialData, hok, hpm, hc] at h
        rw [← h]
        simp
    · simp [Room.fetchInitialData, hok, hpm] at h
      rw [← h]
      by_cases hl0 : 0 < r.opts.historyLength
      · simp [hl0, scanAndFetchLists_length r.opts st hl0]
      · simp [show ¬(r.opts.historyLength > 0) from hl0]

theorem initRoom_history_bound (r : Room) (st : Store)
    (hstart : r.historyData.length ≤ r.opts.historyLength)
    (hlit : r.patternMode = false → st.listItems.length ≤ r.opts.historyLength) :
    (Room.initRoom r st).1.historyData.length ≤ r.opts.historyLength := by
  unfold Room.initRoom
  cases hres : Room.fetchInitialData { r with fetchCount := r.fetchCount + 1 } st with
  | error e => simp [hres, hstart]
  | ok r2 =>
    have hb := fetchInitialData_history_bound hres hlit
    simp only [hres]
    split <;> simp [hb]

theorem ensureInitialized_of_init {r : Room} {st : Store} (h : r.isInitialized = true) :
    Room.ensureInitialized r st = (r, .ok ()) := by
  unfold Room.ensureInitialized
  rw [h]
  simp

theorem ensureInitialized_of_promise {r : Room} {st : Store} (h1 : r.isInitialized = false)
    (h2 : r.hasInitPromise = true) :
    Room.ensureInitialized r st = (r, .ok ()) := by
  unfold Room.ensureInitialized
  rw [h1, h2]
  simp

theorem ensureInitialized_eq_initRoom {r : Room} {st : Store} (h1 : r.isInitialized = false)
    (h2 : r.hasInitPromise = false) :
    Room.ensureInitialized r st = Room.initRoom { r with hasInitPromise := true } st := by
  unfold Room.ensureInitialized
  rw [h1, h2]
  simp

theorem ensureInitialized_history_bound (r : Room) (st : Store)
    (hstart : r.historyData.length ≤ r.opts.historyLength)
    (hlit : r.patternMode = false → st.listItems.length ≤ r.opts.historyLength) :
    (Room.ensureInitialized r st).1.historyData.length ≤ r.opts.historyLength := by
  cases h1 : r.isInitialized with
  | true =>
    rw [ensureInitialized_of_init h1]
    exact hstart
  | false =>
    cases h2 : r.hasInitPromise with
    | true =>
      rw [ensureInitialized_of_promise h1 h2]
      exact hstart
    | false =>
      rw [ensureInitialized_eq_initRoom h1 h2]
      exact initRoom_history_bound { r with hasInitPromise := true } st hstart hlit

/-- The history cap is preserved by one merge. -/
theorem mergeHistory_bound (len : Nat) (hist : List Json) (nd : Json)
    (h : hist.length ≤ len) : (Room.mergeHistory len hist nd).length ≤ len := by
  unfold Room.mergeHistory
  by_cases h0 : len > 0
  · simp only [h0, if_pos]
    split
    · simp_all [List.length_dropLast]
    · simp_all
  · simp [h0, h]

theorem getFullData_room (r : Room) (st : Store) :
    (Room.getFullData r st).1 = (Room.ensureInitialized r st).1 := by
  unfold Room.getFullData
  cases h : Room.ensureInitialized r st with
  | mk a b => cases b <;> simp

theorem getHistoryData_room (r : Room) (st : Store) :
    (Room.getHistoryData r st).1 = (Room.ensureInitialized r st).1 := by
  unfold Room.getHistoryData
  cases h : Room.ensureInitialized r st with
  | mk a b => cases b <;> simp

theorem join_room_history (uid : Nat) (r : Room) (st : Store) :
    (Room.join uid r st).1.historyData =
      (Room.ensureInitialized
        { r with idleSince := none, callbacks := Room.insertCb uid r.callbacks } st).1.historyData := by
  unfold Room.join
  cases h : Room.ensureInitialized
      { r with idleSince := none, callbacks := Room.insertCb uid r.callbacks } st with
  | mk a b => cases b <;> simp [h]

/-- C3 (amended): the bound `historyData.length ≤ historyLength` holds after
initialization and is preserved by every merge, with one proviso the code
forces: for a literal room the store's history list must itself hold at
most `historyLength` items, because the literal fetch — unlike the pattern
scan — never caps what it loads. -/
theorem C3_history_bound_amended (r : Room) (st : Store) (uid : Nat) (newData : JMap)
    (muts : List (JMap → JMap))
    (hstart : r.historyData.length ≤ r.opts.historyLength)
    (hlit : r.patternMode = false → st.listItems.length ≤ r.opts.historyLength) :
    (Room.ensureInitialized r st).1.historyData.length ≤ r.opts.historyLength ∧
    (Room.join uid r st).1.historyData.length ≤ r.opts.historyLength ∧
    (Room.getFullData r st).1.historyData.length ≤ r.opts.historyLength ∧
    (Room.getHistoryData r st).1.historyData.length ≤ r.opts.historyLength ∧
    (Room.mergeAndDispatch r newData muts).1.historyData.length ≤ r.opts.historyLength := by
  refine ⟨ensureInitialized_history_bound r st hstart hlit, ?_, ?_, ?_, ?_⟩
  · rw [join_room_history]
    exact ensureInitialized_history_bound
      { r with idleSince := none, callbacks := Room.insertCb uid r.callbacks } st hstart hlit
  · rw [getFullData_room]
    exact ensureInitialized_history_bound r st hstart hlit
  · rw [getHistoryData_room]
    exact ensureInitialized_history_bound r st hstart hlit
  · exact mergeHistory_bound r.opts.historyLength r.historyData (objOfList newData) hstart

/-- Witness for C3 (amended): a literal room with cap 1 over a store
holding one history item, plus one merged message. -/
theorem C3_history_bound_amended_witness :
    ((newRoom "a".data { historyLength := some 1 }).historyData.length ≤
       (newRoom "a".data { historyLength := some 1 }).opts.historyLength ∧
     ((newRoom "a".data { historyLength := some 1 }).patternMode = false →
       ({ emptyStore with listItems := [['\x7b', '\x7d']] } : Store).listItems.length ≤
         (newRoom "a".data { historyLength := some 1 }).opts.historyLength)) ∧
    ((Room.ensureInitialized (newRoom "a".data { historyLength := some 1 })
        { emptyStore with listItems := [['\x7b', '\x7d']] }).1.historyData.length ≤
       (newRoom "a".data { historyLength := some 1 }).opts.historyLength ∧
     (Room.join 5 (newRoom "a".data { historyLength := some 1 })
        { emptyStore with listItems := [['\x7b', '\x7d']] }).1.historyData.length ≤
       (newRoom "a".data { historyLength := some 1 }).opts.historyLength ∧
     (Room.getFullData (newRoom "a".data { historyLength := some 1 })
        { emptyStore with listItems := [['\x7b', '\x7d']] }).1.historyData.length ≤
       (newRoom "a".data { historyLength := some 1 }).opts.historyLength ∧
     (Room.getHistoryData (newRoom "a".data { historyLength := some 1 })
        { emptyStore with listItems := [['\x7b', '\x7d']] }).1.historyData.length ≤
       (newRoom "a".data { historyLength := some 1 }).opts.historyLength ∧
     (Room.mergeAndDispatch (newRoom "a".data { historyLength := some 1 })
        [(['v'], Json.num 3)] []).1.historyData.length ≤
       (newRoom "a".data { historyLength := some 1 }).opts.historyLength) :=
  ⟨⟨by decide, fun _ => by decide⟩,
    C3_history_bound_amended (newRoom "a".data { historyLength := some 1 })
      { emptyStore with listItems := [['\x7b', '\x7d']] } 5 [(['v'], Json.num 3)] []
      (by decide) (fun _ => by decide)⟩

/-- C3 counterexample: the claim as stated is false — a literal room with
`historyLength = 1` over a store whose list holds two items ends
initialization with `historyData.length = 2`. -/
theorem C3_counterexample :
    (newRoom "a".data { historyLength := some 1 }).opts.historyLength = 1 ∧
    (Room.getHistoryData (newRoom "a".data { historyLength := some 1 })
      { emptyStore with listItems := [['\x7b', '\x7d'], ['\x7b', '\x7d']] }).1.historyData.length
      = 2 ∧
    ¬((Room.getHistoryData (newRoom "a".data { historyLength := some 1 })
        { emptyStore with
          listItems := [['\x7b', '\x7d'], ['\x7b', '\x7d']] }).1.historyData.length ≤
      (newRoom "a".data { historyLength := some 1 }).opts.historyLength) := by
  decide

theorem initRoom_cb_idle (r : Room) (st : Store) :
    (Room.initRoom r st).1.idleSince = r.idleSince ∧
    (Room.initRoom r st).1.callbacks = r.callbacks ∧
    (Room.initRoom r st).1.opts = r.opts ∧
    (Room.initRoom r st).1.patternMode = r.patternMode := by
  unfold Room.initRoom
  cases hres : Room.fetchInitialData { r with fetchCount := r.fetchCount + 1 } st with
  | error e => simp [hres]
  | ok r2 =>
    obtain ⟨-, -, -, -, hopts, hpm, -, hcb, hidle, -, -, -⟩ := fetchInitialData_ok_fields hres
    simp only [hres]
    split <;> simp [hcb, hidle, hopts, hpm]

theorem ensureInitialized_cb_idle (r : Room) (st : Store) :
    (Room.ensureInitialized r st).1.idleSince = r.idleSince ∧
    (Room.ensureInitialized r st).1.callbacks = r.callbacks ∧
    (Room.ensureInitialized r st).1.opts = r.opts ∧
    (Room.ensureInitialized r st).1.patternMode = r.patternMode := by
  cases h1 : r.isInitialized with
  | true => rw [ensureInitialized_of_init h1]; exact ⟨rfl, rfl, rfl, rfl⟩
  | false =>
    cases h2 : r.hasInitPromise with
    | true => rw [ensureInitialized_of_promise h1 h2]; exact ⟨rfl, rfl, rfl, rfl⟩
    | false =>
      rw [ensureInitialized_eq_initRoom h1 h2]
      exact initRoom_cb_idle { r with hasInitPromise := true } st

/-- The idle-marker safety direction: a non-null `idleSince` implies the
room is initialized with an empty callback registry. -/
def idleInv (r : Room) : Prop :=
  r.idleSince ≠ none → (r.isInitialized = true ∧ r.callbacks = [])

theorem join_room_state (uid : Nat) (r : Room) (st : Store) :
    (Room.join uid r st).1.idleSince = none ∧
    (Room.join uid r st).1.callbacks = Room.insertCb uid r.callbacks := by
  unfold Room.join
  cases h : Room.ensureInitialized
      { r with idleSince := none, callbacks := Room.insertCb uid r.callbacks } st with
  | mk a b =>
    obtain ⟨hidle, hcb, -, -⟩ := ensureInitialized_cb_idle
      { r with idleSince := none, callbacks := Room.insertCb uid r.callbacks } st
    rw [h] at hidle hcb
    cases b <;> simp [h] <;> simp at hidle hcb <;> exact ⟨hidle, hcb⟩

theorem idleInv_applyOp (r : Room) (op : RoomOp) (h : idleInv r) : idleInv (applyOp r op) := by
  cases op with
  | join uid st =>
    intro hne
    obtain ⟨hidle, -⟩ := join_room_state uid r st
    exact absurd hidle (by simpa [applyOp] using hne)
  | leave uid now =>
    intro hne
    unfold applyOp Room.leave at hne ⊢
    by_cases hcond : ((r.callbacks.filter (fun u => u ≠ uid)).isEmpty ∧ r.isInitialized = true)
    · refine ⟨hcond.2, ?_⟩
      have he := hcond.1
      rwa [List.isEmpty_iff] at he
    · simp only [hcond, if_neg, not_false_iff] at hne
      obtain ⟨hinit, hcb⟩ := h hne
      refine ⟨hinit, ?_⟩
      simp [hcb]
  | getFullData st =>
    intro hne
    simp only [applyOp] at hne ⊢
    rw [getFullData_room] at hne ⊢
    obtain ⟨hidle, hcb, -, -⟩ := ensureInitialized_cb_idle r st
    rw [hidle] at hne
    obtain ⟨hinit, hcbr⟩ := h hne
    rw [ensureInitialized_of_init hinit]
    exact ⟨hinit, hcbr⟩
  | getHistoryData st =>
    intro hne
    simp only [applyOp] at hne ⊢
    rw [getHistoryData_room] at hne ⊢
    obtain ⟨hidle, hcb, -, -⟩ := ensureInitialized_cb_idle r st
    rw [hidle] at hne
    obtain ⟨hinit, hcbr⟩ := h hne
    rw [ensureInitialized_of_init hinit]
    exact ⟨hinit, hcbr⟩

theorem idleInv_execOps (r : Room) (ops : List RoomOp) (h : idleInv r) :
    idleInv (execOps r ops) := by
  induction ops generalizing r with
  | nil => exact h
  | cons op t ih => exact ih _ (idleInv_applyOp r op h)

theorem leave_iff (uid now : Nat) (r : Room) (h : idleInv r) :
    (Room.leave uid now r).idleSince ≠ none ↔
      ((Room.leave uid now r).isInitialized = true ∧
       (Room.leave uid now r).callbacks = []) := by
  unfold Room.leave
  dsimp only
  by_cases hcond : ((r.callbacks.filter (fun u => u ≠ uid)).isEmpty ∧ r.isInitialized = true)
  · rw [if_pos hcond]
    have he := hcond.1
    rw [List.isEmpty_iff] at he
    constructor
    · intro _
      exact ⟨hcond.2, he⟩
    · intro _
      simp
  · rw [if_neg hcond]
    constructor
    · intro hne
      obtain ⟨hinit, hcb⟩ := h hne
      exact absurd ⟨by rw [hcb]; rfl, hinit⟩ hcond
    · rintro ⟨hinit, hcb⟩
      exact absurd ⟨by rw [hcb]; rfl, hinit⟩ hcond

/-- C4 (amended): after any sequence of completed `join` / `leave` /
`getFullData` / `getHistoryData` operations from a fresh room, a non-null
`idleSince` implies the room is initialized with no callbacks; the full
"if and only if" holds after every `leave`, but not after every operation:
`getFullData` / `getHistoryData` can initialize a room with no callbacks
while leaving `idleSince` null. -/
theorem C4_idle_marker_amended (name : Chars) (o : OptsIn) (ops : List RoomOp)
    (uid now : Nat) :
    idleInv (execOps (newRoom name o) ops) ∧
    ((Room.leave uid now (execOps (newRoom name o) ops)).idleSince ≠ none ↔
      ((Room.leave uid now (execOps (newRoom name o) ops)).isInitialized = true ∧
       (Room.leave uid now (execOps (newRoom name o) ops)).callbacks = [])) := by
  have hfresh : idleInv (newRoom name o) := by
    intro hne
    exact absurd rfl hne
  have h := idleInv_execOps (newRoom name o) ops hfresh
  exact ⟨h, leave_iff uid now _ h⟩

/-- C4 counterexample: the claim as stated is false — `getFullData` on a
fresh room with no callbacks completes with the room initialized and the
registry empty, yet `idleSince` still null, breaking the "iff". -/
theorem C4_counterexample :
    (Room.getFullData (newRoom "a".data {}) emptyStore).1.isInitialized = true ∧
    (Room.getFullData (newRoom "a".data {}) emptyStore).1.callbacks = [] ∧
    (Room.getFullData (newRoom "a".data {}) emptyStore).1.idleSince = none ∧
    ¬((Room.getFullData (newRoom "a".data {}) emptyStore).1.idleSince ≠ none ↔
      ((Room.getFullData (newRoom "a".data {}) emptyStore).1.isInitialized = true ∧
       (Room.getFullData (newRoom "a".data {}) emptyStore).1.callbacks = [])) := by
  decide

/-- Does a stored string start with `{` or `[` (the fetch-time decode
guard)? -/
def braceHeaded : Chars → Bool
  | c :: _ => c = '\x7b' ∨ c = '['
  | [] => false

/-- No string field of the payload starts with `\x7b` or `[` — for such
fields the fetch-time decode never reaches `JSON.parse`, so the model's
parser is not consulted on caller-supplied text. -/
def noBraceStrings (data : JMap) : Bool :=
  data.all (fun p => match p.2 with | .str s => !braceHeaded s | _ => true)

/-- Modelled from the spec: the expected image of one published field after
a snapshot round trip — object/array fields unchanged, every other field as
its string form. -/
def specRoundTrip (v : Json) : Json :=
  match v with
  | .obj f => .obj f
  | .arr e => .arr e
  | v => .str (jsToString v)

theorem lookupA_publishHash {data : JMap} {k : Chars} {v : Json}
    (hnd : (data.map Prod.fst).Nodup) (hmem : (k, v) ∈ data) (hv : v ≠ .null) :
    lookupA (publishHash data) k = some (storedVal v) := by
  induction data with
  | nil => cases hmem
  | cons p t ih =>
    rcases List.mem_cons.1 hmem with hp | hp
    · rw [← hp] at *
      simp only [publishHash, List.filterMap_cons]
      rw [if_neg (by simpa using hv)]
      simp [lookupA]
    · have hk : k ≠ p.1 := by
        intro hkk
        have h1 : p.1 ∈ t.map Prod.fst := List.mem_map.2 ⟨(k, v), hp, by rw [hkk]⟩
        rw [List.map_cons] at hnd
        exact (List.nodup_cons.1 hnd).1 h1
      have hnd2 : (t.map Prod.fst).Nodup := by
        rw [List.map_cons] at hnd
        exact (List.nodup_cons.1 hnd).2
      simp only [publishHash, List.filterMap_cons]
      by_cases hnull : p.2 = .null
      · rw [if_pos hnull]
        exact ih hnd2 hp
      · rw [if_neg hnull]
        simp only [lookupA, List.find?]
        rw [show (decide (p.1 = k)) = false from by
          simp only [decide_eq_false_iff_not]
          exact fun hh => hk hh.symm]
        exact ih hnd2 hp

theorem lookupA_decodeHash (h : List (Chars × Chars)) (k : Chars) :
    lookupA (decodeHash h) k = (lookupA h k).map decodeHashValue := by
  induction h with
  | nil => simp [decodeHash, lookupA]
  | cons p t ih =>
    simp only [decodeHash, List.map_cons, lookupA, List.find?]
    by_cases hk : p.1 = k
    · simp [hk]
    · rw [show (decide (p.1 = k)) = false by simp [hk]]
      simpa [decodeHash, lookupA] using ih

theorem decodeHashValue_cons (c : Char) (t : Chars) :
    decodeHashValue (c :: t) =
      if c = '\x7b' ∨ c = '[' then
        match jsonParse (c :: t) with
        | some v => v
        | none => .str (c :: t)
      else .str (c :: t) := rfl

theorem decode_storedVal (v : Json) (hwf : wfm .val v = true) (hnn : v ≠ .null)
    (hb : ∀ s, v = .str s → braceHeaded s = false) :
    decodeHashValue (storedVal v) = specRoundTrip v := by
  cases v with
  | null => exact absurd rfl hnn
  | bool b => cases b <;> decide
  | num n =>
    show decodeHashValue (intChars n) = .str (intChars n)
    by_cases hn : n < 0
    · obtain ⟨hd, hne, -⟩ := natChars_spec n.natAbs
      obtain ⟨c, t, hct⟩ := List.exists_cons_of_ne_nil hne
      simp [intChars, hn, decodeHashValue, hct]
    · obtain ⟨hd, hne, -⟩ := natChars_spec n.toNat
      obtain ⟨c, t, hct⟩ := List.exists_cons_of_ne_nil hne
      have hc : c.isDigit = true := hd c (by rw [hct]; exact List.mem_cons_self _ _)
      obtain ⟨-, h2, h3, -, -, -, -⟩ := isDigit_ne_delims hc
      simp [intChars, hn, decodeHashValue, hct, h2, h3]
  | str s =>
    show decodeHashValue s = .str s
    have hx := hb s rfl
    cases s with
    | nil => rfl
    | cons c t =>
      rw [decodeHashValue_cons]
      rw [if_neg (by simpa [braceHeaded] using hx)]
  | arr e =>
    show decodeHashValue ('[' :: jsonStringify e ++ [']']) = .arr e
    have hrt : jsonParse ('[' :: jsonStringify e ++ [']']) = some (Json.arr e) :=
      jsonParse_stringify (.arr e) hwf
    rw [List.cons_append] at hrt ⊢
    rw [decodeHashValue_cons, if_pos (Or.inr rfl), hrt]
  | obj f =>
    show decodeHashValue ('\x7b' :: jsonStringify f ++ ['\x7d']) = .obj f
    have hrt : jsonParse ('\x7b' :: jsonStringify f ++ ['\x7d']) = some (Json.obj f) :=
      jsonParse_stringify (.obj f) hwf
    rw [List.cons_append] at hrt ⊢
    rw [decodeHashValue_cons, if_pos (Or.inl rfl), hrt]
  | jnil => simp [wfm] at hwf
  | jcons a b => simp [wfm] at hwf
  | fcons kk a b => simp [wfm] at hwf

theorem publishHash_keys (data : JMap) :
    ((publishHash data).map Prod.fst).Sublist (data.map Prod.fst) := by
  induction data with
  | nil => simp [publishHash]
  | cons p t ih =>
    simp only [publishHash, List.filterMap_cons, List.map_cons]
    by_cases hnull : p.2 = .null
    · rw [if_pos hnull]
      exact List.Sublist.cons _ ih
    · rw [if_neg hnull]
      simp only [List.map_cons]
      exact List.Sublist.cons₂ _ ih

theorem hSetMerge_append (upd : List (Chars × Chars)) :
    ∀ acc : List (Chars × Chars), (upd.map Prod.fst).Nodup →
    (∀ k, k ∈ upd.map Prod.fst → ¬ k ∈ acc.map Prod.fst) →
    hSetMerge acc upd = acc ++ upd := by
  induction upd with
  | nil =>
    intro acc _ _
    simp [hSetMerge]
  | cons p t ih =>
    intro acc hnd hdisj
    have hnotin : ¬ (acc.any (fun q => q.1 = p.1)) = true := by
      intro hany
      obtain ⟨q, hq, hq1⟩ := List.any_eq_true.1 hany
      apply hdisj p.1 (by simp)
      exact List.mem_map.2 ⟨q, hq, by simpa using hq1⟩
    have hset : setA acc p.1 p.2 = acc ++ [(p.1, p.2)] := by
      unfold setA
      rw [if_neg hnotin]
    have hnd2 : (t.map Prod.fst).Nodup := by
      rw [List.map_cons] at hnd
      exact (List.nodup_cons.1 hnd).2
    have hp1 : ¬ p.1 ∈ t.map Prod.fst := by
      rw [List.map_cons] at hnd
      exact (List.nodup_cons.1 hnd).1
    have hdisj2 : ∀ k, k ∈ t.map Prod.fst → ¬ k ∈ (acc ++ [(p.1, p.2)]).map Prod.fst := by
      intro k hk
      rw [List.map_append]
      intro hmem
      rcases List.mem_append.1 hmem with hm | hm
      · exact hdisj k (by simp [hk]) hm
      · simp at hm
        rw [hm] at hk
        exact hp1 hk
    unfold hSetMerge at ih ⊢
    simp only [List.foldl_cons]
    rw [hset, ih (acc ++ [(p.1, p.2)]) hnd2 hdisj2]
    simp

theorem publish_store (data : JMap) (hnd : (data.map Prod.fst).Nodup)
    (hne : publishHash data ≠ []) :
    (RoomManager.publish data (mergeOpts {}) emptyStore).hash = publishHash data ∧
    (RoomManager.publish data (mergeOpts {}) emptyStore).fetchOk = true ∧
    (RoomManager.publish data (mergeOpts {}) emptyStore).subscribeOk = true := by
  unfold RoomManager.publish
  dsimp only
  rw [if_neg (show ¬((mergeOpts {}).historyLength > 0) by decide)]
  rw [if_pos (show (mergeOpts {}).enableFullData = true ∧ publishHash data ≠ [] from
    ⟨rfl, hne⟩)]
  refine ⟨?_, rfl, rfl⟩
  show hSetMerge [] (publishHash data) = publishHash data
  rw [hSetMerge_append (publishHash data) []
    ((publishHash_keys data).nodup hnd) (by simp)]
  simp

theorem getFullData_fresh_literal (name : Chars) (st : Store) (hp : hasStar name = false)
    (hf : st.fetchOk = true) (hs : st.subscribeOk = true) :
    (Room.getFullData (newRoom name {}) st).2 = .ok (decodeHash st.hash) := by
  unfold Room.getFullData
  rw [ensureInitialized_eq_initRoom rfl rfl]
  unfold Room.initRoom Room.fetchInitialData
  simp [newRoom, mergeOpts, hp, hf, hs]

/-- C5 (amended): publish a payload none of whose string fields starts
with `\x7b` or `[` to a literal room with `enableFullData = true`, then
read it back with `getFullData` on a fresh room over the same store:
object/array fields come back with the same nested structure and every
other field as its string form.  A string field that does start with
`\x7b` or `[` is outside this guarantee: the fetch-time decode re-parses
it, and when it parses as JSON it comes back as the decoded structure
instead of the string, as the counterexample shows. -/
theorem C5_snapshot_roundtrip_amended (data : JMap) (name k : Chars) (v : Json)
    (hp : hasStar name = false)
    (hnd : (data.map Prod.fst).Nodup) (hmem : (k, v) ∈ data)
    (hwf : wfm .val v = true) (hnn : v ≠ .null)
    (hnb : noBraceStrings data = true) :
    (Room.getFullData (newRoom name {})
        (RoomManager.publish data (mergeOpts {}) emptyStore)).2 =
      .ok (decodeHash (publishHash data)) ∧
    lookupA (decodeHash (publishHash data)) k = some (specRoundTrip v) := by
  have hb : ∀ s, v = .str s → braceHeaded s = false := by
    intro s hs
    have hball := List.all_eq_true.1 hnb _ hmem
    rw [hs] at hball
    simpa using hball
  have hlk := lookupA_publishHash hnd hmem hnn
  have hne : publishHash data ≠ [] := by
    intro hnil
    rw [hnil] at hlk
    simp [lookupA] at hlk
  obtain ⟨hhash, hf, hs⟩ := publish_store data hnd hne
  constructor
  · rw [getFullData_fresh_literal name _ hp hf hs, hhash]
  · rw [lookupA_decodeHash, hlk]
    simp [decode_storedVal v hwf hnn hb]

/-- Witness for C5 (amended): publish `\x7bu: "a", s: 100\x7d` and read the
numeric field back as the string "100". -/
theorem C5_snapshot_roundtrip_amended_witness :
    (hasStar ['r'] = false ∧
     (([(['u'], Json.str ['a']), (['s'], Json.num 100)] : JMap).map Prod.fst).Nodup ∧
     ((['s'], Json.num 100) ∈ ([(['u'], Json.str ['a']), (['s'], Json.num 100)] : JMap)) ∧
     wfm .val (Json.num 100) = true ∧ Json.num 100 ≠ Json.null ∧
     noBraceStrings [(['u'], Json.str ['a']), (['s'], Json.num 100)] = true) ∧
    ((Room.getFullData (newRoom ['r'] {})
        (RoomManager.publish [(['u'], Json.str ['a']), (['s'], Json.num 100)]
          (mergeOpts {}) emptyStore)).2 =
      .ok (decodeHash (publishHash [(['u'], Json.str ['a']), (['s'], Json.num 100)])) ∧
     lookupA (decodeHash (publishHash [(['u'], Json.str ['a']), (['s'], Json.num 100)]))
        ['s'] = some (specRoundTrip (Json.num 100))) :=
  ⟨⟨by decide, by decide, by decide, by decide, by decide, by decide⟩,
    C5_snapshot_roundtrip_amended [(['u'], Json.str ['a']), (['s'], Json.num 100)]
      ['r'] ['s'] (Json.num 100) (by decide) (by decide) (by decide) (by decide)
      (by decide) (by decide)⟩

/-- C5 counterexample: the claim as stated is false — the primitive string
field `"[1]"` does not round-trip as its string form; `getFullData`
returns the decoded array `[1]` for it. -/
theorem C5_counterexample :
    (Room.getFullData (newRoom ['r'] {})
        (RoomManager.publish [(['u'], Json.str ['[', '1', ']'])]
          (mergeOpts {}) emptyStore)).2 =
      .ok [(['u'], Json.arr (.jcons (.num 1) .jnil))] ∧
    Json.arr (.jcons (.num 1) .jnil) ≠ Json.str ['[', '1', ']'] ∧
    jsToString (Json.str ['[', '1', ']']) = ['[', '1', ']'] := by
  decide

theorem replaceChannelSuffix_append (newSuf b : Chars) :
    replaceChannelSuffix newSuf (b ++ ":channel".data) = b ++ newSuf := by
  unfold replaceChannelSuffix
  rw [if_pos (by rw [List.isSuffixOf_iff_suffix]; exact List.suffix_append b _)]
  have hlen : (b ++ ":channel".data).length - 8 = b.length := by
    simp [List.length_append]
  rw [hlen, List.take_left' rfl]

/-- C6 (amended): the channel key is always `P:n:channel` with the `*` of a
pattern name retained, and the scan-time patterns derived from it by
suffix replacement also retain `*`; but the stored `fullDataKey` /
`historyKey` of a pattern name replace the first `*` of `P:n` with the
text `\x7b\x7b*\x7d\x7d` — only literal names use the plain `P:n:hash` /
`P:n:list` formulas. -/
theorem C6_key_layout_amended (pfx name : Chars) :
    (generateKeys pfx name).channelKey = (pfx ++ ':' :: name) ++ ":channel".data ∧
    (hasStar name = false →
      (generateKeys pfx name).fullDataKey = (pfx ++ ':' :: name) ++ ":hash".data ∧
      (generateKeys pfx name).historyKey = (pfx ++ ':' :: name) ++ ":list".data) ∧
    (hasStar name = true →
      (generateKeys pfx name).fullDataKey =
        replaceFirstChar '*' starRepl (pfx ++ ':' :: name) ++ ":hash".data ∧
      (generateKeys pfx name).historyKey =
        replaceFirstChar '*' starRepl (pfx ++ ':' :: name) ++ ":list".data) ∧
    replaceChannelSuffix ":hash".data (generateKeys pfx name).channelKey =
      (pfx ++ ':' :: name) ++ ":hash".data ∧
    replaceChannelSuffix ":list".data (generateKeys pfx name).channelKey =
      (pfx ++ ':' :: name) ++ ":list".data := by
  have hch : (generateKeys pfx name).channelKey = (pfx ++ ':' :: name) ++ ":channel".data := by
    unfold generateKeys
    dsimp only
    split <;> rfl
  refine ⟨hch, ?_, ?_, ?_, ?_⟩
  · intro hstar
    unfold generateKeys
    simp [hstar]
  · intro hstar
    unfold generateKeys
    simp [hstar]
  · rw [hch, replaceChannelSuffix_append]
  · rw [hch, replaceChannelSuffix_append]

/-- Witness for C6 (amended) at `prefix = room`, literal name `a`, pattern
name `p:*`. -/
theorem C6_key_layout_amended_witness :
    ((generateKeys "room".data "p:*".data).channelKey =
       (("room".data ++ ':' :: "p:*".data) ++ ":channel".data) ∧
     (hasStar "p:*".data = false →
       (generateKeys "room".data "p:*".data).fullDataKey =
         ("room".data ++ ':' :: "p:*".data) ++ ":hash".data ∧
       (generateKeys "room".data "p:*".data).historyKey =
         ("room".data ++ ':' :: "p:*".data) ++ ":list".data) ∧
     (hasStar "p:*".data = true →
       (generateKeys "room".data "p:*".data).fullDataKey =
         replaceFirstChar '*' starRepl ("room".data ++ ':' :: "p:*".data) ++ ":hash".data ∧
       (generateKeys "room".data "p:*".data).historyKey =
         replaceFirstChar '*' starRepl ("room".data ++ ':' :: "p:*".data) ++ ":list".data) ∧
     replaceChannelSuffix ":hash".data (generateKeys "room".data "p:*".data).channelKey =
       ("room".data ++ ':' :: "p:*".data) ++ ":hash".data ∧
     replaceChannelSuffix ":list".data (generateKeys "room".data "p:*".data).channelKey =
       ("room".data ++ ':' :: "p:*".data) ++ ":list".data) :=
  C6_key_layout_amended "room".data "p:*".data

/-- C6 counterexample: the claim as stated is false — for the pattern name
`p:*` the snapshot key is not `room:p:*:hash`; the `*` is replaced by
`\x7b\x7b*\x7d\x7d` in the snapshot and history keys (the channel key does
keep the `*`). -/
theorem C6_counterexample :
    (generateKeys "room".data "p:*".data).fullDataKey =
      "room:p:".data ++ starRepl ++ ":hash".data ∧
    (generateKeys "room".data "p:*".data).fullDataKey ≠ "room:p:*:hash".data ∧
    (generateKeys "room".data "p:*".data).historyKey ≠ "room:p:*:list".data ∧
    (generateKeys "room".data "p:*".data).channelKey = "room:p:*:channel".data := by
  decide

/-- C7 (amended): during pattern-room initialization the concatenated
history is sorted descending by `timestamp` only when its first item has a
truthy `timestamp` field, and the comparator subtracts the numerically
coerced timestamps, so numeric strings sort by their values.  When the
first item's timestamp is truthy and every item's timestamp coerces to a
number (`tsNum` defined), the result is the capped stable descending sort
of the concatenation: pairwise descending on the coerced values, capped in
length, drawn from the concatenation.  When the first item has no truthy
timestamp, the concatenation order is kept (capped), even if later items
do carry timestamps. -/
theorem C7_pattern_sort_amended (opts : Opts) (st : Store) (x : Json) (tl : List Json)
    (hpos : 0 < opts.historyLength) (hm : mergedListOf st = x :: tl) :
    (truthyTs x = false →
      scanAndFetchLists opts st = (x :: tl).take opts.historyLength) ∧
    (truthyTs x = true → (∀ j ∈ x :: tl, (tsNum j).isSome = true) →
      scanAndFetchLists opts st = (sortByTsDesc (x :: tl)).take opts.historyLength ∧
      List.Pairwise (fun a b => tsVal b ≤ tsVal a) (scanAndFetchLists opts st) ∧
      (scanAndFetchLists opts st).length = min opts.historyLength (x :: tl).length ∧
      (∀ j ∈ scanAndFetchLists opts st, j ∈ x :: tl)) := by
  have hbody : scanAndFetchLists opts st =
      (if truthyTs x then sortByTsDesc (x :: tl) else x :: tl).take opts.historyLength := by
    unfold scanAndFetchLists
    rw [hm]
    dsimp only
    rw [if_pos hpos]
  constructor
  · intro hfalse
    rw [hbody, hfalse]
    simp
  · intro htrue _hnum
    have heq : scanAndFetchLists opts st = (sortByTsDesc (x :: tl)).take opts.historyLength := by
      rw [hbody, htrue]
      simp
    have htrans : ∀ a b c : Json, decide (tsVal b ≤ tsVal a) = true →
        decide (tsVal c ≤ tsVal b) = true → decide (tsVal c ≤ tsVal a) = true := by
      intro a b c h1 h2
      simp at h1 h2 ⊢
      omega
    have htotal : ∀ a b : Json,
        (decide (tsVal b ≤ tsVal a) || decide (tsVal a ≤ tsVal b)) = true := by
      intro a b
      simp
      omega
    refine ⟨heq, ?_, ?_, ?_⟩
    · rw [heq]
      refine List.Pairwise.sublist (List.take_sublist _ _) ?_
      have := @List.sorted_mergeSort Json
        (fun a b => decide (tsVal b ≤ tsVal a)) htrans htotal (x :: tl)
      refine this.imp ?_
      intro a b hab
      simpa using hab
    · rw [heq]
      simp [List.length_take, sortByTsDesc]
    · intro j hj
      rw [heq] at hj
      have hj2 := (List.take_sublist _ _).mem hj
      rw [sortByTsDesc, List.mem_mergeSort] at hj2
      exact hj2

/-- Witness for C7 (amended): two matched lists whose merged items carry
the string timestamps "5" and "9", which the comparator coerces and sorts
descending. -/
theorem C7_pattern_sort_amended_witness :
    (0 < (mergeOpts { historyLength := some 5 }).historyLength ∧
     mergedListOf { emptyStore with patternLists :=
        [[jsonStringify (Json.obj (.fcons "timestamp".data (.str ['5']) .jnil))],
         [jsonStringify (Json.obj (.fcons "timestamp".data (.str ['9']) .jnil))]] } =
       Json.obj (.fcons "timestamp".data (.str ['5']) .jnil) ::
         [Json.obj (.fcons "timestamp".data (.str ['9']) .jnil)]) ∧
    ((truthyTs (Json.obj (.fcons "timestamp".data (.str ['5']) .jnil)) = false →
      scanAndFetchLists (mergeOpts { historyLength := some 5 })
        { emptyStore with patternLists :=
          [[jsonStringify (Json.obj (.fcons "timestamp".data (.str ['5']) .jnil))],
           [jsonStringify (Json.obj (.fcons "timestamp".data (.str ['9']) .jnil))]] } =
        (Json.obj (.fcons "timestamp".data (.str ['5']) .jnil) ::
          [Json.obj (.fcons "timestamp".data (.str ['9']) .jnil)]).take
          (mergeOpts { historyLength := some 5 }).historyLength) ∧
     (truthyTs (Json.obj (.fcons "timestamp".data (.str ['5']) .jnil)) = true →
      (∀ j ∈ Json.obj (.fcons "timestamp".data (.str ['5']) .jnil) ::
          [Json.obj (.fcons "timestamp".data (.str ['9']) .jnil)],
        (tsNum j).isSome = true) →
      scanAndFetchLists (mergeOpts { historyLength := some 5 })
        { emptyStore with patternLists :=
          [[jsonStringify (Json.obj (.fcons "timestamp".data (.str ['5']) .jnil))],
           [jsonStringify (Json.obj (.fcons "timestamp".data (.str ['9']) .jnil))]] } =
        (sortByTsDesc (Json.obj (.fcons "timestamp".data (.str ['5']) .jnil) ::
          [Json.obj (.fcons "timestamp".data (.str ['9']) .jnil)])).take
          (mergeOpts { historyLength := some 5 }).historyLength ∧
      List.Pairwise (fun a b => tsVal b ≤ tsVal a)
        (scanAndFetchLists (mergeOpts { historyLength := some 5 })
          { emptyStore with patternLists :=
            [[jsonStringify (Json.obj (.fcons "timestamp".data (.str ['5']) .jnil))],
             [jsonStringify (Json.obj (.fcons "timestamp".data (.str ['9']) .jnil))]] }) ∧
      (scanAndFetchLists (mergeOpts { historyLength := some 5 })
        { emptyStore with patternLists :=
          [[jsonStringify (Json.obj (.fcons "timestamp".data (.str ['5']) .jnil))],
           [jsonStringify (Json.obj (.fcons "timestamp".data (.str ['9']) .jnil))]] }).length =
        min (mergeOpts { historyLength := some 5 }).historyLength
          (Json.obj (.fcons "timestamp".data (.str ['5']) .jnil) ::
            [Json.obj (.fcons "timestamp".data (.str ['9']) .jnil)]).length ∧
      (∀ j ∈ scanAndFetchLists (mergeOpts { historyLength := some 5 })
          { emptyStore with patternLists :=
            [[jsonStringify (Json.obj (.fcons "timestamp".data (.str ['5']) .jnil))],
             [jsonStringify (Json.obj (.fcons "timestamp".data (.str ['9']) .jnil))]] },
        j ∈ Json.obj (.fcons "timestamp".data (.str ['5']) .jnil) ::
          [Json.obj (.fcons "timestamp".data (.str ['9']) .jnil)]))) :=
  ⟨⟨by decide, by decide⟩,
    C7_pattern_sort_amended (mergeOpts { historyLength := some 5 })
      { emptyStore with patternLists :=
        [[jsonStringify (Json.obj (.fcons "timestamp".data (.str ['5']) .jnil))],
         [jsonStringify (Json.obj (.fcons "timestamp".data (.str ['9']) .jnil))]] }
      (Json.obj (.fcons "timestamp".data (.str ['5']) .jnil))
      [Json.obj (.fcons "timestamp".data (.str ['9']) .jnil)]
      (by decide) (by decide)⟩

/-- C7 counterexample: the claim as stated is false — when the first
concatenated item has no `timestamp`, later items with timestamps are left
unsorted (9 stays after 5), even though some item has a timestamp field. -/
theorem C7_counterexample :
    scanAndFetchLists (mergeOpts { historyLength := some 5 })
      { emptyStore with patternLists :=
        [[jsonStringify (Json.obj (.fcons ['a'] (.num 1) .jnil)),
          jsonStringify (Json.obj (.fcons "timestamp".data (.num 5) .jnil)),
          jsonStringify (Json.obj (.fcons "timestamp".data (.num 9) .jnil))]] } =
      [Json.obj (.fcons ['a'] (.num 1) .jnil),
       Json.obj (.fcons "timestamp".data (.num 5) .jnil),
       Json.obj (.fcons "timestamp".data (.num 9) .jnil)] ∧
    (∃ j ∈ scanAndFetchLists (mergeOpts { historyLength := some 5 })
      { emptyStore with patternLists :=
        [[jsonStringify (Json.obj (.fcons ['a'] (.num 1) .jnil)),
          jsonStringify (Json.obj (.fcons "timestamp".data (.num 5) .jnil)),
          jsonStringify (Json.obj (.fcons "timestamp".data (.num 9) .jnil))]] },
      truthyTs j = true) ∧
    ¬ List.Pairwise (fun a b => tsVal b ≤ tsVal a)
      (scanAndFetchLists (mergeOpts { historyLength := some 5 })
        { emptyStore with patternLists :=
          [[jsonStringify (Json.obj (.fcons ['a'] (.num 1) .jnil)),
            jsonStringify (Json.obj (.fcons "timestamp".data (.num 5) .jnil)),
            jsonStringify (Json.obj (.fcons "timestamp".data (.num 9) .jnil))]] }) := by
  decide

theorem destroy_fields (r : Room) :
    (Room.destroy r).isInitialized = false ∧
    (Room.destroy r).callbacks = [] ∧
    (Room.destroy r).hasInitPromise = false ∧
    (Room.destroy r).messageHandler = false ∧
    (Room.destroy r).fetchCount = r.fetchCount ∧
    (Room.destroy r).subscribeCount = r.subscribeCount ∧
    (Room.destroy r).dispatches = r.dispatches := by
  unfold Room.destroy
  split <;> exact ⟨rfl, rfl, rfl, rfl, rfl, rfl, rfl⟩

theorem join_ok (uid : Nat) (r : Room) (st : Store)
    (hni : r.isInitialized = false) (hnp : r.hasInitPromise = false)
    (hf : st.fetchOk = true) (hs : st.subscribeOk = true) (hl : st.listItems = []) :
    (Room.join uid r st).2 = .ok () ∧
    (Room.join uid r st).1.isInitialized = true ∧
    (Room.join uid r st).1.fetchCount = r.fetchCount + 1 ∧
    (Room.join uid r st).1.subscribeCount = r.subscribeCount + 1 ∧
    (uid, (none : Option Json)) ∈ (Room.join uid r st).1.dispatches := by
  unfold Room.join
  dsimp only
  rw [ensureInitialized_eq_initRoom
    (show ({ r with idleSince := none, callbacks := Room.insertCb uid r.callbacks } : Room).isInitialized = false from hni)
    (show ({ r with idleSince := none, callbacks := Room.insertCb uid r.callbacks } : Room).hasInitPromise = false from hnp)]
  obtain ⟨hok, hini, hfc, hsc, hdisp, -⟩ := initRoom_ok ({ r with idleSince := none, callbacks := Room.insertCb uid r.callbacks, hasInitPromise := true }) st hf hs hl
  cases hres : Room.initRoom { r with idleSince := none, callbacks := Room.insertCb uid r.callbacks, hasInitPromise := true } st with
  | mk r4 res =>
    rw [hres] at hok hini hfc hsc hdisp
    simp at hok
    subst hok
    exact ⟨rfl, hini, hfc, hsc, by simp⟩

/-- C8 (amended): `destroy` does not make the room terminal — it resets it
to the uninitialized state (callbacks cleared, promise dropped, handler
released).  A subsequent `join` on the destroyed instance re-initializes:
it issues a fresh fetch and a fresh subscribe, marks the room initialized
again, and dispatches to the new joiner.  Terminality holds only while no
further calls are made on the instance. -/
theorem C8_destroy_not_terminal_amended (r : Room) (st : Store) (uid : Nat)
    (hf : st.fetchOk = true) (hs : st.subscribeOk = true) (hl : st.listItems = []) :
    (Room.destroy r).isInitialized = false ∧
    (Room.destroy r).callbacks = [] ∧
    (Room.destroy r).hasInitPromise = false ∧
    (Room.destroy r).messageHandler = false ∧
    (Room.join uid (Room.destroy r) st).2 = .ok () ∧
    (Room.join uid (Room.destroy r) st).1.isInitialized = true ∧
    (Room.join uid (Room.destroy r) st).1.fetchCount = r.fetchCount + 1 ∧
    (Room.join uid (Room.destroy r) st).1.subscribeCount = r.subscribeCount + 1 ∧
    (uid, (none : Option Json)) ∈ (Room.join uid (Room.destroy r) st).1.dispatches := by
  obtain ⟨hdi, hdc, hdp, hdm, hdf, hds, hdd⟩ := destroy_fields r
  obtain ⟨hok, hini, hfc, hsc, hdisp⟩ := join_ok uid (Room.destroy r) st hdi hdp hf hs hl
  rw [hdf] at hfc
  rw [hds] at hsc
  exact ⟨hdi, hdc, hdp, hdm, hok, hini, hfc, hsc, hdisp⟩

/-- Witness for C8 (amended) on a fresh room and the empty store. -/
theorem C8_destroy_not_terminal_amended_witness :
    (emptyStore.fetchOk = true ∧ emptyStore.subscribeOk = true ∧ emptyStore.listItems = []) ∧
    ((Room.destroy (newRoom ['a'] {})).isInitialized = false ∧
     (Room.destroy (newRoom ['a'] {})).callbacks = [] ∧
     (Room.destroy (newRoom ['a'] {})).hasInitPromise = false ∧
     (Room.destroy (newRoom ['a'] {})).messageHandler = false ∧
     (Room.join 2 (Room.destroy (newRoom ['a'] {})) emptyStore).2 = .ok () ∧
     (Room.join 2 (Room.destroy (newRoom ['a'] {})) emptyStore).1.isInitialized = true ∧
     (Room.join 2 (Room.destroy (newRoom ['a'] {})) emptyStore).1.fetchCount =
       (newRoom ['a'] {}).fetchCount + 1 ∧
     (Room.join 2 (Room.destroy (newRoom ['a'] {})) emptyStore).1.subscribeCount =
       (newRoom ['a'] {}).subscribeCount + 1 ∧
     (2, (none : Option Json)) ∈
       (Room.join 2 (Room.destroy (newRoom ['a'] {})) emptyStore).1.dispatches) :=
  ⟨⟨by decide, by decide, by decide⟩,
    C8_destroy_not_terminal_amended (newRoom ['a'] {}) emptyStore 2
      (by decide) (by decide) (by decide)⟩

/-- C8 counterexample: the claim as stated is false — after `destroy` on a
room that had been joined and initialized, a further `join` makes the room
initialized again, issues a second subscribe, and dispatches a callback. -/
theorem C8_counterexample :
    (Room.destroy (Room.join 1 (newRoom ['a'] {}) emptyStore).1).isInitialized = false ∧
    (Room.join 2 (Room.destroy (Room.join 1 (newRoom ['a'] {}) emptyStore).1)
        emptyStore).1.isInitialized = true ∧
    (Room.join 2 (Room.destroy (Room.join 1 (newRoom ['a'] {}) emptyStore).1)
        emptyStore).1.subscribeCount = 2 ∧
    (2, (none : Option Json)) ∈
      (Room.join 2 (Room.destroy (Room.join 1 (newRoom ['a'] {}) emptyStore).1)
        emptyStore).1.dispatches := by
  decide

/-- C9: `getRoom` never modifies an existing room — when the name is
present it returns the stored instance and leaves the manager untouched,
whatever the options argument says (so, in particular, it never upgrades
`enablePublish`); `createRoom` on the same state, by contrast, does
upgrade a non-producer room when asked for a producer. -/
theorem C9_getRoom_frame (name : Chars) (o : OptsIn) (m : RoomManager) (room : Room)
    (hmem : lookupA m.rooms name = some room) :
    RoomManager.getRoom name o m = .ok (room, m) ∧
    (o.enablePublish.getD false = true → room.opts.enablePublish = false →
      hasStar name = false →
      ∃ room2 m2, RoomManager.createRoom name o m = .ok (room2, m2) ∧
        room2.opts.enablePublish = true) := by
  constructor
  · unfold RoomManager.getRoom
    rw [hmem]
  · intro hpub hnp hstar
    unfold RoomManager.createRoom
    rw [if_neg (by rw [hstar, hpub]; exact fun hh => Bool.noConfusion hh.1)]
    rw [hmem]
    dsimp only
    rw [if_pos ⟨hpub, hnp⟩]
    exact ⟨_, _, rfl, rfl⟩

/-- Witness for C9: a manager holding one consumer room `a`, asked with
producer options. -/
theorem C9_getRoom_frame_witness :
    (lookupA ({ globalPref := "room".data, rooms := [(['a'], newRoom ['a'] {})] } : RoomManager).rooms ['a'] =
      some (newRoom ['a'] {})) ∧
    (RoomManager.getRoom ['a'] { enablePublish := some true }
        { globalPref := "room".data, rooms := [(['a'], newRoom ['a'] {})] } =
      .ok (newRoom ['a'] {}, { globalPref := "room".data, rooms := [(['a'], newRoom ['a'] {})] }) ∧
     (({ enablePublish := some true } : OptsIn).enablePublish.getD false = true →
       (newRoom ['a'] {}).opts.enablePublish = false → hasStar ['a'] = false →
       ∃ room2 m2, RoomManager.createRoom ['a'] { enablePublish := some true }
           { globalPref := "room".data, rooms := [(['a'], newRoom ['a'] {})] } =
         .ok (room2, m2) ∧
         room2.opts.enablePublish = true)) :=
  ⟨by decide,
    C9_getRoom_frame ['a'] { enablePublish := some true }
      { globalPref := "room".data, rooms := [(['a'], newRoom ['a'] {})] }
      (newRoom ['a'] {}) (by decide)⟩

/-! ### C10: one shared snapshot copy per dispatch -/

/-- Every field value of a map is a well-formed payload value (the chain
constructors are never used as values). -/
def wfMap (fd : JMap) : Bool := fd.all (fun p => wfm .val p.2)

/-- The contents of the shared snapshot-copy object after the first
callbacks of the list have run, each applying its mutation in turn. -/
def applyMuts : List (JMap → JMap) → JMap → JMap
  | [], c => c
  | m :: ms, c => applyMuts ms (m c)

theorem listOfFields_fieldsOfList (l : JMap) : listOfFields (fieldsOfList l) = l := by
  induction l with
  | nil => rfl
  | cons p t ih => simp [fieldsOfList, listOfFields, ih]

theorem wfm_fieldsOfList (l : JMap) (h : wfMap l = true) :
    wfm .fields (fieldsOfList l) = true := by
  induction l with
  | nil => rfl
  | cons p t ih =>
    simp only [wfMap, List.all_cons, Bool.and_eq_true] at h
    simp only [fieldsOfList, wfm, Bool.and_eq_true]
    exact ⟨h.1, ih h.2⟩

/-- On well-formed data `JSON.parse(JSON.stringify(fullData))` reproduces
the map exactly. -/
theorem deepCopy_eq (fd : JMap) (h : wfMap fd = true) : Room.deepCopy fd = fd := by
  unfold Room.deepCopy
  have hwf : wfm .val (objOfList fd) = true := by
    simpa [objOfList, wfm] using wfm_fieldsOfList fd h
  rw [jsonParse_stringify (objOfList fd) hwf]
  exact listOfFields_fieldsOfList fd

theorem runCbs_length (copy newData : JMap) (muts : List (JMap → JMap)) :
    (Room.runCbs copy newData muts).length = muts.length := by
  induction muts generalizing copy with
  | nil => rfl
  | cons m ms ih => simp [Room.runCbs, ih]

theorem runCbs_getElem (muts : List (JMap → JMap)) :
    ∀ (copy newData : JMap) (k : Nat), k < muts.length →
      (Room.runCbs copy newData muts)[k]? =
        some (applyMuts (muts.take k) copy, newData) := by
  induction muts with
  | nil => intro _ _ k hk; exact absurd hk (by simp)
  | cons m ms ih =>
    intro copy newData k hk
    cases k with
    | zero => simp [Room.runCbs, applyMuts]
    | succ k =>
      have hk2 : k < ms.length := by simpa using hk
      simpa [Room.runCbs, applyMuts] using ih (m copy) newData k hk2

/-- C10: `_mergeAndDispatch` makes exactly one deep copy of the merged
snapshot per dispatch (`copyCount` grows by one).  Every registered
callback is invoked once, the k-th receiving the single shared copy after
the first k callbacks' mutations — so a mutation by one callback is
visible to all later callbacks of the same dispatch — together with the
raw, un-copied payload.  The room's own state, in particular its
`fullData`, is the merge of the payload and does not depend on what the
callbacks do to their copy. -/
theorem C10_one_copy_per_dispatch (r : Room) (newData : JMap)
    (muts : List (JMap → JMap))
    (hwf : wfMap (if r.opts.enableFullData then Room.mergeFull r.fullData newData
                  else r.fullData) = true) :
    (Room.mergeAndDispatch r newData muts).1.copyCount = r.copyCount + 1 ∧
    (Room.mergeAndDispatch r newData muts).2.length = muts.length ∧
    (∀ k, k < muts.length →
      ((Room.mergeAndDispatch r newData muts).2)[k]? =
        some (applyMuts (muts.take k)
          (if r.opts.enableFullData then Room.mergeFull r.fullData newData
           else r.fullData), newData)) ∧
    (Room.mergeAndDispatch r newData muts).1.fullData =
      (if r.opts.enableFullData then Room.mergeFull r.fullData newData
       else r.fullData) ∧
    (Room.mergeAndDispatch r newData muts).1 =
      (Room.mergeAndDispatch r newData []).1 := by
  unfold Room.mergeAndDispatch
  dsimp only
  refine ⟨rfl, runCbs_length _ _ _, ?_, rfl, rfl⟩
  intro k hk
  rw [deepCopy_eq _ hwf]
  exact runCbs_getElem muts _ newData k hk

/-- Witness for C10: a fresh room on default options, a one-field payload
and two callbacks, the first of which overwrites the shared copy's field. -/
theorem C10_one_copy_per_dispatch_witness :
    wfMap (if (newRoom ['a'] {}).opts.enableFullData then
             Room.mergeFull (newRoom ['a'] {}).fullData [(['x'], Json.num 1)]
           else (newRoom ['a'] {}).fullData) = true ∧
    ((Room.mergeAndDispatch (newRoom ['a'] {}) [(['x'], Json.num 1)]
        [fun c => setA c ['x'] (Json.num 7), fun c => c]).1.copyCount =
      (newRoom ['a'] {}).copyCount + 1 ∧
     (Room.mergeAndDispatch (newRoom ['a'] {}) [(['x'], Json.num 1)]
        [fun c => setA c ['x'] (Json.num 7), fun c => c]).2.length =
      ([fun c => setA c ['x'] (Json.num 7), fun c => c] : List (JMap → JMap)).length ∧
     (∀ k, k < ([fun c => setA c ['x'] (Json.num 7), fun c => c] : List (JMap → JMap)).length →
       ((Room.mergeAndDispatch (newRoom ['a'] {}) [(['x'], Json.num 1)]
          [fun c => setA c ['x'] (Json.num 7), fun c => c]).2)[k]? =
         some (applyMuts (([fun c => setA c ['x'] (Json.num 7), fun c => c] :
             List (JMap → JMap)).take k) [(['x'], Json.num 1)], [(['x'], Json.num 1)])) ∧
     (Room.mergeAndDispatch (newRoom ['a'] {}) [(['x'], Json.num 1)]
        [fun c => setA c ['x'] (Json.num 7), fun c => c]).1.fullData =
       [(['x'], Json.num 1)] ∧
     (Room.mergeAndDispatch (newRoom ['a'] {}) [(['x'], Json.num 1)]
        [fun c => setA c ['x'] (Json.num 7), fun c => c]).1 =
       (Room.mergeAndDispatch (newRoom ['a'] {}) [(['x'], Json.num 1)] []).1) :=
  ⟨by decide,
    C10_one_copy_per_dispatch (newRoom ['a'] {}) [(['x'], Json.num 1)]
      [fun c => setA c ['x'] (Json.num 7), fun c => c] (by decide)⟩
